import Mathlib

/-!
# Verification of `SparseAddressSpace` (src/SparseAddressSpace.h)

A shallow embedding of the sparse byte-addressable memory model
`SparseAddressSpace<T_addr>` instantiated (as in the repository's tests) at
`T_addr = uint32_t`.  Addresses are modelled as `Nat` (the `T_addr` value),
range arithmetic is carried out in `Int` (the C++ code performs it in the
signed `LargeInt = long long`), and byte buffers are `List Nat` with values
reduced modulo 256 at the `uint8_t` conversion points of the source.

The external interval index (`IntervalTree`) is modelled by its interface
semantics: stored entries are `(start, stop)` pairs with `stop` one past the
segment's last byte (clamped at the top of the address space, see
`Segment::toInterval`), `findOverlapping(p, p)` returns the entries with
`start ≤ p ≤ stop` (both bounds inclusive, which is the reason for the
re-validation in `SparseAddressSpace::contains`), and
`findContained(l, r)` returns the entries with `l ≤ start` and `stop ≤ r`.
-/

namespace SpASpace

/-- `c_maxAddr` for `T_addr = uint32_t`: `std::numeric_limits<uint32_t>::max()`. -/
def maxAddr : Int := 4294967295

/-- `T_addr` increment (`byteAddress++` in `writeValue`/`readValue`):
unsigned 32-bit wrap-around. -/
def addrSucc (a : Nat) : Nat := (a + 1) % 4294967296

/-- `SparseAddressSpace::Segment`: a contiguous run of bytes (`data`) starting
at address `start`. -/
structure Segment where
  start : Nat
  data : List Nat
  deriving Repr, DecidableEq

namespace Segment

/-- The segment's start address as a `LargeInt`. -/
def lo (s : Segment) : Int := s.start

/-- `Segment::end()`: address of the last byte, `start + data.size() - 1`
computed in `LargeInt`. -/
def hi (s : Segment) : Int := s.lo + s.data.length - 1

/-- `Segment::contains(T_addr addr)`: `start <= addr && addr <= end()`. -/
def covers (s : Segment) (a : Int) : Prop := s.lo ≤ a ∧ a ≤ s.hi

instance (s : Segment) (a : Int) : Decidable (s.covers a) := by
  unfold covers; infer_instance

/-- `Segment::contains(const Segment&)`:
`start <= other.start && end() >= other.end()`. -/
def containsSeg (s other : Segment) : Prop := s.lo ≤ other.lo ∧ other.hi ≤ s.hi

instance (s t : Segment) : Decidable (s.containsSeg t) := by
  unfold containsSeg; infer_instance

/-- The stop bound of `Segment::toInterval()`: `end() + 1`, truncated to
`c_maxAddr` when the segment reaches the top of the address space. -/
def stopI (s : Segment) : Int := if s.hi + 1 > maxAddr then maxAddr else s.hi + 1

/-- The byte stored at absolute address `a` (`data[a - start]`). -/
def byteAt (s : Segment) (a : Int) : Nat := s.data.getD (a - s.lo).toNat 0

/-- `segment->data[addr - segment->start] = value` with the `uint8_t`
narrowing of the written value. -/
def writeAt (s : Segment) (a : Int) (v : Nat) : Segment :=
  { s with data := s.data.set (a - s.lo).toNat (v % 256) }

end Segment

/-- The "Coalesce lower" step of `SparseAddressSpace::coalesce`: when
`coalesce_lower_bytes = s2.start - s1.start` is positive, prepend the
non-overlapping prefix of `s1`'s bytes to `s2` and lower `s2.start`. -/
def coalesceLower (s1 s2 : Segment) : Segment :=
  if 0 < s2.lo - s1.lo then
    ⟨s1.start, s1.data.take (s2.lo - s1.lo).toNat ++ s2.data⟩
  else s2

/-- The "Coalesce upper" step of `SparseAddressSpace::coalesce`: when
`coalesce_upper_bytes = s1.end() - s2.end()` is positive (computed after the
lower step), append the last `coalesce_upper_bytes` bytes of `s1`. -/
def coalesceUpper (s1 s2a : Segment) : Segment :=
  if 0 < s1.hi - s2a.hi then
    ⟨s2a.start, s2a.data ++ s1.data.drop (s1.data.length - (s1.hi - s2a.hi).toNat)⟩
  else s2a

/-- `SparseAddressSpace::coalesce(s1, s2)`: merge `s1` into `s2`, values of
`s2` winning on overlapping addresses. -/
def coalesce (s1 s2 : Segment) : Segment :=
  if s2.containsSeg s1 then s2 else coalesceUpper s1 (coalesceLower s1 s2)

/-- Two segments occupy disjoint, non-adjacent address ranges. -/
def separated (s t : Segment) : Prop := s.hi + 1 < t.lo ∨ t.hi + 1 < s.lo

instance (s t : Segment) : Decidable (separated s t) := by
  unfold separated; infer_instance

theorem separated_symm : ∀ {s t : Segment}, separated s t → separated t s := by
  intro s t h; cases h with
  | inl h => exact Or.inr h
  | inr h => exact Or.inl h

/-- `IntervalTree::findOverlapping(p, p)` membership for a stored segment
interval: `start ≤ p ≤ stop` (the tree treats both bounds inclusively). -/
def overlapsPt (t : Segment) (p : Int) : Prop := t.lo ≤ p ∧ p ≤ t.stopI

instance (t : Segment) (p : Int) : Decidable (overlapsPt t p) := by
  unfold overlapsPt; infer_instance

/-- `IntervalTree::findContained(l, r)` membership: `l ≤ start ∧ stop ≤ r`. -/
def containedIn (t : Segment) (l r : Int) : Prop := l ≤ t.lo ∧ t.stopI ≤ r

instance (t : Segment) (l r : Int) : Decidable (containedIn t l r) := by
  unfold containedIn; infer_instance

/-- One `SparseAddressSpace` object without its initialization overlay:
the live interval index contents (`data`, as the list of indexed segments),
the most-recently-used cache slot (`m_mruSegment`) and `m_minSegSize`. -/
structure Store where
  live : List Segment
  mru : Option Segment
  minSegSize : Nat
  deriving Repr, DecidableEq

/-- A segment of `insertSegment`'s input is dropped from the keep-set when it
is fully contained in the new segment's range or overlaps one of the two edge
addresses `segment.start` and `segment.end() + 1`. -/
def caughtBy (t seg : Segment) : Prop :=
  containedIn t seg.lo seg.hi ∨ overlapsPt t seg.lo ∨ overlapsPt t (seg.hi + 1)

instance (t seg : Segment) : Decidable (caughtBy t seg) := by
  unfold caughtBy; infer_instance

/-- The segments coalesced into the inserted segment: those returned by
`findOverlapping` at edge `segment.start`, then those at `segment.end() + 1`. -/
def edgeHits (l : List Segment) (seg : Segment) : List Segment :=
  l.filter (fun t => decide (overlapsPt t seg.lo)) ++
    l.filter (fun t => decide (overlapsPt t (seg.hi + 1)))

/-- The keep-set of `insertSegment`: the live segments that are neither fully
contained in the new segment's range nor overlapping one of its edges. -/
def keptSegs (l : List Segment) (seg : Segment) : List Segment :=
  l.filter (fun t => decide (¬ caughtBy t seg))

/-- The new segment after all edge-overlapping segments have been coalesced
into it (in the edge/visit order of the source's loops). -/
def insertedSeg (l : List Segment) (seg : Segment) : Segment :=
  (edgeHits l seg).foldl (fun w t => coalesce t w) seg

/-- `SparseAddressSpace::insertSegment`: a zero-length segment is a no-op;
otherwise fully-contained segments are dropped, segments overlapping either
edge address are coalesced into the new segment, the index is rebuilt from
the kept segments plus the coalesced new segment, and the new segment becomes
the MRU segment. -/
def insertSegment (st : Store) (seg : Segment) : Store :=
  if seg.data.length = 0 then st
  else
    { st with live := keptSegs st.live seg ++ [insertedSeg st.live seg],
              mru := some (insertedSeg st.live seg) }

/-- `SparseAddressSpace::contains(address)`: query the index for segments
overlapping the single address, and re-validate a hit against the segment's
true inclusive range (guarding the off-by-one of the exclusive interval end). -/
def containsAddr (st : Store) (a : Int) : Option Segment :=
  match st.live.filter (fun t => decide (overlapsPt t a)) with
  | [] => none
  | t :: _ => if t.covers a then some t else none

/-- The candidate window `[newstart, newstop)` computed by
`createMissingSegment` before insertion: a `m_minSegSize`-wide window centered
on `addr`, shifted up on underflow below 0, truncated at the closest lower
neighbour's stored stop (the truncated bytes re-added at the top), truncated
at the closest upper neighbour's start, and clamped to `c_maxAddr + 1`. -/
def lowerStep (addr : Int) (acc : Option Segment) (t : Segment) : Option Segment :=
  if t.stopI ≤ addr then
    match acc with
    | none => some t
    | some m => if t.stopI > m.stopI then some t else acc
  else acc

/-- The closest lower neighbour of `addr`: the stored interval with the
largest `stop` among those with `stop <= addr`. -/
def lowerNeighbor (l : List Segment) (addr : Int) : Option Segment :=
  l.foldl (lowerStep addr) none

def upperStep (addr : Int) (acc : Option Segment) (t : Segment) : Option Segment :=
  if t.lo > addr then
    match acc with
    | none => some t
    | some m => if t.lo < m.lo then some t else acc
  else acc

/-- The closest upper neighbour of `addr`: the stored interval with the
smallest `start` among those with `start > addr`. -/
def upperNeighbor (l : List Segment) (addr : Int) : Option Segment :=
  l.foldl (upperStep addr) none

def missingWindow (st : Store) (addr : Nat) : Int × Int :=
  let lower := lowerNeighbor st.live (addr : Int)
  let upper := upperNeighbor st.live (addr : Int)
  let half : Int := (st.minSegSize / 2 : Nat)
  let newstart0 : Int := (addr : Int) - half
  let adjustStart : Int := if newstart0 < 0 then -newstart0 else 0
  let newstart1 := newstart0 + adjustStart
  let newstop0 : Int := (addr : Int) + half + 1 + adjustStart
  let p1 : Int × Int :=
    match lower with
    | some l =>
      if l.stopI ≥ newstart1 then (l.stopI, newstop0 + (l.stopI - newstart1))
      else (newstart1, newstop0)
    | none => (newstart1, newstop0)
  let newstop2 : Int :=
    match upper with
    | some u => if u.lo ≤ p1.2 then u.lo else p1.2
    | none => p1.2
  let newstop3 : Int := if newstop2 > maxAddr then maxAddr + 1 else newstop2
  (p1.1, newstop3)

/-- `SparseAddressSpace::createMissingSegment(addr)`: insert a zero-filled
segment over the window computed around `addr`. -/
def createMissingSegment (st : Store) (addr : Nat) : Store :=
  let w := missingWindow st addr
  insertSegment st ⟨w.1.toNat, List.replicate (w.2 - w.1).toNat 0⟩

/-- One resolution pass of `segmentForAddress`: the MRU segment if it contains
the address, else the (re-validated) index query. -/
def resolve0 (st : Store) (a : Int) : Option Segment :=
  match st.mru with
  | some m => if m.covers a then some m else containsAddr st a
  | none => containsAddr st a

/-- `SparseAddressSpace::segmentForAddress(addr)`: try the MRU segment, then
the index; on a miss, materialize a segment via `createMissingSegment` and
retry.  The source retries by unbounded recursion; the embedding performs the
single retry that theorem `claim_C8_segmentForAddress_total` proves
sufficient, so `none` is returned exactly when the source would need
recursion depth greater than one. -/
def segmentForAddress (st : Store) (a : Nat) : Option (Segment × Store) :=
  match resolve0 st (a : Int) with
  | some s => some (s, st)
  | none =>
    let st' := createMissingSegment st a
    match resolve0 st' (a : Int) with
    | some s => some (s, st')
    | none => none

/-- `SparseAddressSpace::writeByte`: resolve the segment for the address and
write the (narrowed) value at offset `addr - segment->start`.  The in-place
mutation through the shared segment pointer is reflected by replacing the
resolved segment's occurrences in the live index and the MRU slot. -/
def writeByte (st : Store) (a : Nat) (v : Nat) : Option Store :=
  (segmentForAddress st a).map fun p =>
    let s := p.1
    let s' := s.writeAt (a : Int) v
    { live := p.2.live.map (fun t => if t = s then s' else t),
      mru := p.2.mru.map (fun m => if m = s then s' else m),
      minSegSize := p.2.minSegSize }

/-- `SparseAddressSpace::readByte`: resolve the segment for the address and
read `data[address - segment->start]`.  The returned store reflects any
segment materialized by the resolution (the source performs this physical
mutation behind `const`). -/
def readByte (st : Store) (a : Nat) : Option (Nat × Store) :=
  (segmentForAddress st a).map fun p => (p.1.byteAt (a : Int), p.2)

/-- The loop of `writeValue`: write `n` bytes little-endian (least significant
byte first), each via `writeByte`, incrementing the `T_addr` address and
shifting the value right by `CHAR_BIT` after every byte. -/
def writeBytesLE (st : Store) (a : Nat) (v : Nat) : Nat → Option Store
  | 0 => some st
  | n + 1 =>
    (writeByte st a v).bind fun st' => writeBytesLE st' (addrSucc a) (v / 256) n

/-- `SparseAddressSpace::writeValue(byteAddress, value, nbytes)` for a value
type of `sizeofV` bytes: `nbytes > sizeof(value)` throws before anything is
written; otherwise the little-endian byte loop runs. -/
def writeValue (st : Store) (a : Nat) (v : Nat) (sizeofV nbytes : Nat) :
    Except String (Option Store) :=
  if nbytes > sizeofV then
    .error "Trying to write more bytes than what is contained in @p value"
  else .ok (writeBytesLE st a v nbytes)

/-- The byte-accumulation loop of `readValue`: assemble `n` bytes
little-endian via repeated `readByte`.  Each iteration of the source computes
`value |= readByte(address++) << (i * CHAR_BIT)`; this loop is its exact
value for the iterations whose shift is defined (`i < 4`, see
`readValueLE`). -/
def readBytesLE (st : Store) (a : Nat) : Nat → Option (Nat × Store)
  | 0 => some (0, st)
  | n + 1 =>
    (readByte st a).bind fun b =>
      (readBytesLE b.2 (addrSucc a) n).map fun r => (b.1 + 256 * r.1, r.2)

/-- `SparseAddressSpace::readValue<T_v>(address)` for a value type of `w`
bytes.  The source's loop body `value |= readByte(address++) << (i * CHAR_BIT)`
promotes the `uint8_t` byte to (32-bit) `int` before shifting, so an
iteration with `i * CHAR_BIT ≥ 32` — any byte index from 4 on — shifts by at
least the promoted type's width, which is undefined behavior; no byte can
reach bits 32 and above of an 8-byte value type.  The embedding therefore
assigns a result only to widths `w ≤ 4`, where every shift is in range and
the loop accumulates exactly `readBytesLE`; a wider read has no defined
result. -/
def readValueLE (st : Store) (a : Nat) (w : Nat) : Option (Nat × Store) :=
  if w ≤ 4 then readBytesLE st a w else none

/-- The full `SparseAddressSpace` object: the live store plus the lazily
allocated initialization overlay `m_initData` (itself a `SparseAddressSpace`,
whose own overlay is never populated by any code path of the repository). -/
structure SpAS where
  store : Store
  initData : Option Store
  deriving Repr, DecidableEq

/-- The default-constructed `SparseAddressSpace` (`minSegSize = 5`). -/
def freshStore : Store := { live := [], mru := none, minSegSize := 5 }

/-- `SparseAddressSpace::getInitSas()`: return the overlay, default-building
it (with the constructor default `minSegSize = 5`) on first use. -/
def getInitSas (st : SpAS) : Store × SpAS :=
  match st.initData with
  | some ov => (ov, st)
  | none => (freshStore, { st with initData := some freshStore })

/-- Modelled from the spec: `addInitSegment(seg)` is called by the
repository's tests but is not present in `src/SparseAddressSpace.h`; per
§4.5 of the spec it "inserts `seg` into the nested `initOverlay` store using
the same coalescing algorithm as 4.1, but never touches the live store". -/
def addInitSegment (st : SpAS) (seg : Segment) : SpAS :=
  let p := getInitSas st
  { p.2 with initData := some (insertSegment p.1 seg) }

/-- `SparseAddressSpace::clear()`: empty the live index and, when the overlay
exists, clear it as well.  Neither level's MRU slot is touched. -/
def clear (st : SpAS) : SpAS :=
  { store := { st.store with live := [] },
    initData := st.initData.map (fun ov => { ov with live := [] }) }

/-- `SparseAddressSpace::reset()`: empty the live index, then deep-copy every
overlay segment into the live store via `insertSegment`.  The MRU slot is not
cleared by the assignment `data = SASData()`. -/
def reset (st : SpAS) : SpAS :=
  let base : Store := { st.store with live := [] }
  { store :=
      match st.initData with
      | some ov => ov.live.foldl insertSegment base
      | none => base,
    initData := st.initData }

/-- The mutating / observing operations of the public interface, as used by
the claims: segment insertion, byte and multi-byte writes, byte reads, and
`reset`.  `ins` carries the start address and byte contents of the
caller-constructed segment; `wv` carries the value, its native size in bytes
and the requested byte count. -/
inductive Op where
  | ins (start : Nat) (bytes : List Nat)
  | wb (a : Nat) (v : Nat)
  | wv (a : Nat) (v : Nat) (sizeofV nbytes : Nat)
  | rb (a : Nat)
  | rst
  deriving Repr, DecidableEq

/-- Execute one operation.  A `writeValue` whose width check throws leaves
the address space unchanged (the exception is raised before any byte is
written), which the caller observes as the original state. -/
def stepOp (st : SpAS) : Op → Option SpAS
  | .ins s bytes => some { st with store := insertSegment st.store ⟨s, bytes⟩ }
  | .wb a v => (writeByte st.store a v).map fun s => { st with store := s }
  | .wv a v sz n =>
    match writeValue st.store a v sz n with
    | .error _ => some st
    | .ok o => o.map fun s => { st with store := s }
  | .rb a => (readByte st.store a).map fun p => { st with store := p.2 }
  | .rst => some (reset st)

/-- Run a sequence of operations. -/
def runOps (st : SpAS) : List Op → Option SpAS
  | [] => some st
  | op :: ops => (stepOp st op).bind fun st' => runOps st' ops

/-- Domain constraints of an operation: addresses are `T_addr` values and a
caller-supplied segment stays inside the address space (spec §3: segments
never represent an address past `max(Address)`). -/
def ValidOp : Op → Prop
  | .ins s bytes => (s : Int) + bytes.length - 1 ≤ maxAddr
  | .wb a _ => (a : Int) ≤ maxAddr
  | .wv a _ _ _ => (a : Int) ≤ maxAddr
  | .rb a => (a : Int) ≤ maxAddr
  | .rst => True

instance : DecidablePred ValidOp := by
  intro op; cases op <;> (unfold ValidOp; infer_instance)

/-- An operation that only mutates live memory (a write or an insertion or a
read), as in claim C5's "arbitrary mutation of live memory". -/
def LiveOp : Op → Prop
  | .ins _ _ => True
  | .wb _ _ => True
  | .wv _ _ _ _ => True
  | .rb _ => True
  | .rst => False

instance : DecidablePred LiveOp := by
  intro op; cases op <;> (unfold LiveOp; infer_instance)

/-- The byte a list of live segments associates with address `a`: the byte of
the segment covering `a`, or 0 when no segment covers it. -/
def memOf (l : List Segment) (a : Int) : Nat :=
  match l.find? (fun t => decide (t.covers a)) with
  | some t => t.byteAt a
  | none => 0

/-- The byte observed at address `a` by the resolution order of
`segmentForAddress`: the MRU segment's byte when the MRU slot covers `a`,
else the byte of the live segment covering `a`, else 0. -/
def absMem (st : Store) (a : Int) : Nat :=
  match st.mru with
  | some m => if m.covers a then m.byteAt a else memOf st.live a
  | none => memOf st.live a

/-- Well-formedness of a live segment list: segments are non-empty, stay
inside the address space, and are pairwise disjoint and non-adjacent. -/
def WFsegs (l : List Segment) : Prop :=
  (∀ s ∈ l, s.data ≠ [] ∧ s.hi ≤ maxAddr) ∧ l.Pairwise separated

instance (l : List Segment) : Decidable (WFsegs l) := by
  unfold WFsegs; infer_instance

/-- Well-formedness of a store, an invariant of every reachable state: the
live list is well-formed, the MRU slot holds a live segment (or, right after
`clear`/`reset` emptied the index underneath it, a stale but well-shaped
segment while the index is empty), and `m_minSegSize` is odd and at least 3
(the constructor's assertions). -/
def WFStore (st : Store) : Prop :=
  WFsegs st.live ∧
  (∀ m, st.mru = some m →
    m ∈ st.live ∨ (st.live = [] ∧ m.data ≠ [] ∧ m.hi ≤ maxAddr)) ∧
  st.minSegSize % 2 = 1 ∧ 3 ≤ st.minSegSize

instance (st : Store) : Decidable (WFStore st) := by
  unfold WFStore; infer_instance

/-- A healthy MRU slot: the cached segment (when set) is one of the live
segments.  `clear()` and `reset()` break this by emptying the index without
touching `m_mruSegment`; every other operation preserves it. -/
def MRUOk (st : Store) : Prop := ∀ m, st.mru = some m → m ∈ st.live

instance (st : Store) : Decidable (MRUOk st) := by
  unfold MRUOk
  cases h : st.mru with
  | none => exact isTrue (by intro m hm; cases hm)
  | some m =>
    cases hd : decide (m ∈ st.live) with
    | true =>
      exact isTrue (by
        intro m1 hm1
        cases hm1
        exact of_decide_eq_true hd)
    | false =>
      exact isFalse (fun hall => (of_decide_eq_false hd) (hall m rfl))

/-- Well-formedness of the full object: the live store and (when allocated)
the overlay store are well-formed. -/
def WFS (st : SpAS) : Prop :=
  WFStore st.store ∧ ∀ ov, st.initData = some ov → WFStore ov

/-- The value assembled by `readValue` from the observable live byte map:
`n` bytes starting at `a`, least significant first, with the `T_addr`
address wrap of the source's `address++`. -/
def readSum (l : List Segment) (a : Nat) : Nat → Nat
  | 0 => 0
  | n + 1 => memOf l (a : Int) + 256 * readSum l (addrSucc a) n

/-- Invariant of the edge-coalescing fold of `insertSegment`, relating the
running segment `w` to the inserted segment `seg` and the live list `l`:
`w` spans at least `seg`'s range, carries `seg`'s bytes there and old live
bytes elsewhere, and its bounds come from `seg` or from caught segments. -/
def InsP (l : List Segment) (seg w : Segment) : Prop :=
  w.data ≠ [] ∧ w.lo ≤ seg.lo ∧ seg.hi ≤ w.hi ∧ w.hi ≤ maxAddr ∧
  (∀ a : Int, seg.covers a → w.byteAt a = seg.byteAt a) ∧
  (∀ a : Int, w.covers a → ¬ seg.covers a → w.byteAt a = memOf l a) ∧
  (∀ a : Int, w.covers a → seg.covers a ∨ ∃ t, t ∈ l ∧ caughtBy t seg ∧ t.covers a) ∧
  (w.lo = seg.lo ∨ ∃ t, t ∈ l ∧ caughtBy t seg ∧ w.lo = t.lo) ∧
  (w.hi = seg.hi ∨ ∃ t, t ∈ l ∧ caughtBy t seg ∧ w.hi = t.hi)

instance (st : SpAS) : Decidable (WFS st) := by
  unfold WFS
  have : Decidable (∀ ov, st.initData = some ov → WFStore ov) := by
    cases h : st.initData with
    | none => exact isTrue (by intro ov hov; simp at hov)
    | some ov =>
      cases hd : decide (WFStore ov) with
      | true => exact isTrue (by intro ov' hov'; cases hov'; exact of_decide_eq_true hd)
      | false => exact isFalse (fun hall => (of_decide_eq_false hd) (hall ov rfl))
  infer_instance

/-! ## Helper lemmas about list indexing -/

theorem getD_take_eq (l : List Nat) (k n : Nat) (h : n < k) (d : Nat) :
    (l.take k).getD n d = l.getD n d := by
  simp [List.getD_eq_getElem?_getD, List.getElem?_take, h]

theorem getD_drop_eq (l : List Nat) (k n : Nat) (d : Nat) :
    (l.drop k).getD n d = l.getD (k + n) d := by
  simp [List.getD_eq_getElem?_getD, List.getElem?_drop]

theorem getD_set_ne (l : List Nat) (i v j : Nat) (hne : i ≠ j) (d : Nat) :
    (l.set i v).getD j d = l.getD j d := by
  simp [List.getD_eq_getElem?_getD, List.getElem?_set_ne hne]

theorem getD_set_self (l : List Nat) (i v : Nat) (hi : i < l.length) (d : Nat) :
    (l.set i v).getD i d = v := by
  simp [List.getD_eq_getElem?_getD, List.getElem?_set_self, hi]

theorem getD_replicate_eq (n v i d : Nat) (h : i < n) :
    (List.replicate n v).getD i d = v := by
  simp [List.getD_eq_getElem?_getD, List.getElem?_replicate, h]

/-! ## Basic segment facts -/

theorem Segment.lo_nonneg (s : Segment) : 0 ≤ s.lo := Int.ofNat_nonneg s.start

theorem Segment.hi_eq (s : Segment) : s.hi = s.lo + s.data.length - 1 := rfl

theorem Segment.length_eq (s : Segment) : (s.data.length : Int) = s.hi - s.lo + 1 := by
  simp [Segment.hi_eq]; ring

theorem Segment.lo_le_hi (s : Segment) (h : s.data ≠ []) : s.lo ≤ s.hi := by
  have : 0 < s.data.length := List.length_pos.mpr h
  have := s.length_eq
  omega

theorem Segment.ne_nil_of_lo_le_hi (s : Segment) (h : s.lo ≤ s.hi) : s.data ≠ [] := by
  have := s.length_eq
  intro hn
  rw [hn] at this
  simp at this
  omega

/-! ## Specification of `coalesce` -/

theorem coalesceLower_spec (s1 s2 : Segment) (h1 : s1.data ≠ []) (h2 : s2.data ≠ [])
    (ht2 : s2.lo ≤ s1.hi + 1) :
    (coalesceLower s1 s2).lo = min s1.lo s2.lo ∧
    (coalesceLower s1 s2).hi = s2.hi ∧
    (coalesceLower s1 s2).data ≠ [] ∧
    (∀ a : Int, s2.covers a → (coalesceLower s1 s2).byteAt a = s2.byteAt a) ∧
    (∀ a : Int, s1.lo ≤ a → a < s2.lo → (coalesceLower s1 s2).byteAt a = s1.byteAt a) := by
  have hl1 : 0 < s1.data.length := List.length_pos.mpr h1
  have hl2 : 0 < s2.data.length := List.length_pos.mpr h2
  have hlen1 := s1.length_eq
  have hlen2 := s2.length_eq
  by_cases hclb : 0 < s2.lo - s1.lo
  · have hr : coalesceLower s1 s2 =
        ⟨s1.start, s1.data.take (s2.lo - s1.lo).toNat ++ s2.data⟩ := by
      unfold coalesceLower; rw [if_pos hclb]
    set k : Nat := (s2.lo - s1.lo).toNat with hkdef
    have hk : (k : Int) = s2.lo - s1.lo := Int.toNat_of_nonneg (by omega)
    have hk1 : k ≤ s1.data.length := by omega
    have htl : (s1.data.take k).length = k := by
      rw [List.length_take]; omega
    have hrlo : (coalesceLower s1 s2).lo = s1.lo := by rw [hr]; rfl
    have hrlen : (coalesceLower s1 s2).data.length = k + s2.data.length := by
      rw [hr]; simp only [List.length_append, htl]
    have hrhi : (coalesceLower s1 s2).hi = s2.hi := by
      have := (coalesceLower s1 s2).length_eq
      rw [hrlen, hrlo] at this
      push_cast at this
      omega
    refine ⟨by rw [hrlo]; omega, hrhi, ?_, ?_, ?_⟩
    · refine (coalesceLower s1 s2).ne_nil_of_lo_le_hi ?_
      rw [hrlo, hrhi]; omega
    · intro a ha
      obtain ⟨ha1, ha2⟩ := ha
      have hi0 : ((a - s1.lo).toNat : Int) = a - s1.lo := Int.toNat_of_nonneg (by omega)
      unfold Segment.byteAt
      rw [hr, hrlo] at *
      show (s1.data.take k ++ s2.data).getD (a - s1.lo).toNat 0 = _
      rw [List.getD_append_right _ _ _ _ (by rw [htl]; omega)]
      rw [htl]
      have : (a - s1.lo).toNat - k = (a - s2.lo).toNat := by omega
      rw [this]
    · intro a ha1 ha2
      have hi0 : ((a - s1.lo).toNat : Int) = a - s1.lo := Int.toNat_of_nonneg (by omega)
      unfold Segment.byteAt
      rw [hr]
      show (s1.data.take k ++ s2.data).getD (a - s1.lo).toNat 0 =
        s1.data.getD (a - s1.lo).toNat 0
      rw [List.getD_append _ _ _ _ (by rw [htl]; omega)]
      rw [getD_take_eq _ _ _ (by omega)]
  · have hr : coalesceLower s1 s2 = s2 := by
      unfold coalesceLower; rw [if_neg hclb]
    rw [hr]
    refine ⟨by omega, rfl, h2, fun a _ => rfl, ?_⟩
    intro a ha1 ha2
    omega

theorem coalesceUpper_spec (s1 s2a : Segment) (h1 : s1.data ≠ []) (h2 : s2a.data ≠ [])
    (ht1 : s1.lo ≤ s2a.hi + 1) :
    (coalesceUpper s1 s2a).lo = s2a.lo ∧
    (coalesceUpper s1 s2a).hi = max s1.hi s2a.hi ∧
    (coalesceUpper s1 s2a).data ≠ [] ∧
    (∀ a : Int, s2a.covers a → (coalesceUpper s1 s2a).byteAt a = s2a.byteAt a) ∧
    (∀ a : Int, s2a.hi < a → a ≤ s1.hi → (coalesceUpper s1 s2a).byteAt a = s1.byteAt a) := by
  have hl1 : 0 < s1.data.length := List.length_pos.mpr h1
  have hl2 : 0 < s2a.data.length := List.length_pos.mpr h2
  have hlen1 := s1.length_eq
  have hlen2 := s2a.length_eq
  by_cases hcub : 0 < s1.hi - s2a.hi
  · have hr : coalesceUpper s1 s2a =
        ⟨s2a.start, s2a.data ++ s1.data.drop (s1.data.length - (s1.hi - s2a.hi).toNat)⟩ := by
      unfold coalesceUpper; rw [if_pos hcub]
    set c : Nat := (s1.hi - s2a.hi).toNat with hcdef
    have hc : (c : Int) = s1.hi - s2a.hi := Int.toNat_of_nonneg (by omega)
    have hc1 : c ≤ s1.data.length := by omega
    have hdl : (s1.data.drop (s1.data.length - c)).length = c := by
      rw [List.length_drop]; omega
    have hrlo : (coalesceUpper s1 s2a).lo = s2a.lo := by rw [hr]; rfl
    have hrlen : (coalesceUpper s1 s2a).data.length = s2a.data.length + c := by
      rw [hr]; simp only [List.length_append, hdl]
    have hrhi : (coalesceUpper s1 s2a).hi = s1.hi := by
      have := (coalesceUpper s1 s2a).length_eq
      rw [hrlen, hrlo] at this
      push_cast at this
      omega
    refine ⟨hrlo, by rw [hrhi]; omega, ?_, ?_, ?_⟩
    · refine (coalesceUpper s1 s2a).ne_nil_of_lo_le_hi ?_
      rw [hrlo, hrhi]; omega
    · intro a ha
      obtain ⟨ha1, ha2⟩ := ha
      have hi0 : ((a - s2a.lo).toNat : Int) = a - s2a.lo := Int.toNat_of_nonneg (by omega)
      unfold Segment.byteAt
      rw [hr]
      show (s2a.data ++ s1.data.drop (s1.data.length - c)).getD (a - s2a.lo).toNat 0 =
        s2a.data.getD (a - s2a.lo).toNat 0
      rw [List.getD_append _ _ _ _ (by omega)]
    · intro a ha1 ha2
      have hi0 : ((a - s2a.lo).toNat : Int) = a - s2a.lo := Int.toNat_of_nonneg (by omega)
      unfold Segment.byteAt
      rw [hr]
      show (s2a.data ++ s1.data.drop (s1.data.length - c)).getD (a - s2a.lo).toNat 0 =
        s1.data.getD (a - s1.lo).toNat 0
      rw [List.getD_append_right _ _ _ _ (by omega)]
      rw [getD_drop_eq]
      have : s1.data.length - c + ((a - s2a.lo).toNat - s2a.data.length) = (a - s1.lo).toNat := by
        omega
      rw [this]
  · have hr : coalesceUpper s1 s2a = s2a := by
      unfold coalesceUpper; rw [if_neg hcub]
    rw [hr]
    refine ⟨rfl, by omega, h2, fun a _ => rfl, ?_⟩
    intro a ha1 ha2
    omega

/-- Specification of `coalesce`: merging a segment `s1` whose range overlaps
or abuts the range of `s2` yields one segment spanning the union of both
ranges, holding `s2`'s bytes on `s2`'s range and `s1`'s bytes on the
remainder of `s1`'s range. -/
theorem coalesce_spec (s1 s2 : Segment) (h1 : s1.data ≠ []) (h2 : s2.data ≠ [])
    (ht1 : s1.lo ≤ s2.hi + 1) (ht2 : s2.lo ≤ s1.hi + 1) :
    (coalesce s1 s2).lo = min s1.lo s2.lo ∧
    (coalesce s1 s2).hi = max s1.hi s2.hi ∧
    (coalesce s1 s2).data ≠ [] ∧
    (∀ a : Int, s2.covers a → (coalesce s1 s2).byteAt a = s2.byteAt a) ∧
    (∀ a : Int, s1.covers a → ¬ s2.covers a → (coalesce s1 s2).byteAt a = s1.byteAt a) := by
  by_cases hc : s2.containsSeg s1
  · have hr : coalesce s1 s2 = s2 := by unfold coalesce; rw [if_pos hc]
    obtain ⟨hc1, hc2⟩ := hc
    rw [hr]
    refine ⟨by omega, by omega, h2, fun a _ => rfl, ?_⟩
    intro a ha hna
    obtain ⟨ha1, ha2⟩ := ha
    exact absurd ⟨by omega, by omega⟩ hna
  · have hr : coalesce s1 s2 = coalesceUpper s1 (coalesceLower s1 s2) := by
      unfold coalesce; rw [if_neg hc]
    obtain ⟨hllo, hlhi, hlne, hlnew, hlold⟩ := coalesceLower_spec s1 s2 h1 h2 ht2
    have htu : s1.lo ≤ (coalesceLower s1 s2).hi + 1 := by rw [hlhi]; exact ht1
    obtain ⟨hulo, huhi, hune, hunew, huold⟩ :=
      coalesceUpper_spec s1 (coalesceLower s1 s2) h1 hlne htu
    have hs1 := s1.lo_le_hi h1
    have hs2 := s2.lo_le_hi h2
    rw [hr]
    refine ⟨by rw [hulo, hllo], by rw [huhi, hlhi], hune, ?_, ?_⟩
    · intro a ha
      obtain ⟨ha1, ha2⟩ := ha
      have hcov : (coalesceLower s1 s2).covers a := by
        constructor
        · rw [hllo]; omega
        · rw [hlhi]; omega
      rw [hunew a hcov, hlnew a ⟨ha1, ha2⟩]
    · intro a ha hna
      obtain ⟨ha1, ha2⟩ := ha
      rw [Segment.covers, not_and_or] at hna
      rcases hna with hna | hna
      · push_neg at hna
        have hcov : (coalesceLower s1 s2).covers a := by
          constructor
          · rw [hllo]; omega
          · rw [hlhi]; omega
        rw [hunew a hcov, hlold a ha1 hna]
      · push_neg at hna
        have : (coalesceLower s1 s2).hi < a := by rw [hlhi]; omega
        exact huold a this ha2

/-! ## The live index under the well-formedness invariant -/

theorem Segment.stopI_cases (t : Segment) (hthi : t.hi ≤ maxAddr) :
    (t.stopI = t.hi + 1 ∧ t.hi + 1 ≤ maxAddr) ∨ (t.stopI = maxAddr ∧ t.hi = maxAddr) := by
  unfold Segment.stopI
  split_ifs with h
  · right; exact ⟨rfl, by omega⟩
  · left; exact ⟨rfl, by omega⟩

/-- Completeness of `insertSegment`'s removal checks: a live segment either
is caught (fully contained, or overlapping one of the probed edges) or is
disjoint from and non-adjacent to the new segment's range. -/
theorem caught_or_separated (t seg : Segment) (htne : t.data ≠ []) (hthi : t.hi ≤ maxAddr)
    (hsne : seg.data ≠ []) (hshi : seg.hi ≤ maxAddr) :
    caughtBy t seg ∨ separated t seg := by
  have h1 := t.lo_le_hi htne
  have h2 := seg.lo_le_hi hsne
  have h3 := t.lo_nonneg
  have h4 := seg.lo_nonneg
  unfold caughtBy containedIn overlapsPt separated
  rcases t.stopI_cases hthi with ⟨he, hb⟩ | ⟨he, hb⟩ <;> rw [he] <;> omega

theorem covers_unique {l : List Segment} (hp : l.Pairwise separated)
    {t1 t2 : Segment} (h1 : t1 ∈ l) (h2 : t2 ∈ l) {a : Int}
    (hc1 : t1.covers a) (hc2 : t2.covers a) : t1 = t2 := by
  by_contra hne
  have hsep := List.Pairwise.forall (fun _ _ h => separated_symm h) hp h1 h2 hne
  obtain ⟨hx1, hx2⟩ := hc1
  obtain ⟨hy1, hy2⟩ := hc2
  rcases hsep with h | h <;> omega

theorem memOf_eq_byteAt {l : List Segment} (hp : l.Pairwise separated)
    {t : Segment} (ht : t ∈ l) {a : Int} (hc : t.covers a) :
    memOf l a = t.byteAt a := by
  unfold memOf
  cases hfind : l.find? (fun t => decide (t.covers a)) with
  | none =>
    have := List.find?_eq_none.mp hfind t ht
    simp at this
    exact absurd hc this
  | some u =>
    have hu : u.covers a := by have := List.find?_some hfind; simpa using this
    have hm : u ∈ l := List.mem_of_find?_eq_some hfind
    rw [covers_unique hp hm ht hu hc]

theorem memOf_eq_zero {l : List Segment} {a : Int} (h : ∀ t ∈ l, ¬ t.covers a) :
    memOf l a = 0 := by
  unfold memOf
  have hn : l.find? (fun t => decide (t.covers a)) = none := by
    rw [List.find?_eq_none]
    intro x hx
    simpa using h x hx
  rw [hn]

theorem memOf_append_right {l1 l2 : List Segment} {a : Int}
    (h : ∀ t ∈ l1, ¬ t.covers a) : memOf (l1 ++ l2) a = memOf l2 a := by
  unfold memOf
  rw [List.find?_append]
  have hn : l1.find? (fun t => decide (t.covers a)) = none := by
    rw [List.find?_eq_none]
    intro x hx
    simpa using h x hx
  rw [hn, Option.none_or]

/-! ## The coalescing fold of `insertSegment` -/

theorem InsP_base {l : List Segment} {seg : Segment}
    (hsne : seg.data ≠ []) (hshi : seg.hi ≤ maxAddr) : InsP l seg seg :=
  ⟨hsne, le_refl _, le_refl _, hshi, fun _ _ => rfl,
    fun _ h hn => absurd h hn, fun _ h => Or.inl h, Or.inl rfl, Or.inl rfl⟩

theorem InsP_coalesce {l : List Segment} {seg w t : Segment} (hwf : WFsegs l)
    (hsne : seg.data ≠ []) (ht : t ∈ l)
    (hov : overlapsPt t seg.lo ∨ overlapsPt t (seg.hi + 1)) (hP : InsP l seg w) :
    InsP l seg (coalesce t w) ∧ (coalesce t w).lo ≤ w.lo ∧ w.hi ≤ (coalesce t w).hi ∧
      (coalesce t w).lo ≤ t.lo ∧ t.hi ≤ (coalesce t w).hi := by
  obtain ⟨hwne, hwlo, hwhi, hwmax, hbseg, hbold, hcovr, hlo, hhi⟩ := hP
  obtain ⟨hall, hpair⟩ := hwf
  obtain ⟨htne, hthi⟩ := hall t ht
  have hsll := seg.lo_le_hi hsne
  have htll := t.lo_le_hi htne
  have htouch1 : t.lo ≤ w.hi + 1 := by
    rcases hov with ⟨ho1, _⟩ | ⟨ho1, _⟩ <;> omega
  have htouch2 : w.lo ≤ t.hi + 1 := by
    have hst := t.stopI_cases hthi
    rcases hov with ⟨_, ho2⟩ | ⟨_, ho2⟩ <;>
      rcases hst with ⟨he, hb⟩ | ⟨he, hb⟩ <;> rw [he] at ho2 <;> omega
  obtain ⟨hclo, hchi, hcne, hcnew, hcold⟩ := coalesce_spec t w htne hwne htouch1 htouch2
  have hcaught : caughtBy t seg := Or.inr hov
  refine ⟨⟨hcne, by omega, by omega, by omega, ?_, ?_, ?_, ?_, ?_⟩,
    by omega, by omega, by omega, by omega⟩
  · intro a ha
    have hwc : w.covers a := by
      obtain ⟨ha1, ha2⟩ := ha
      exact ⟨by omega, by omega⟩
    rw [hcnew a hwc, hbseg a ha]
  · intro a hac hnseg
    by_cases hw : w.covers a
    · rw [hcnew a hw]
      exact hbold a hw hnseg
    · have htc : t.covers a := by
        obtain ⟨ha1, ha2⟩ := hac
        rcases not_and_or.mp hw with hw' | hw'
        · push_neg at hw'
          exact ⟨by omega, by omega⟩
        · push_neg at hw'
          exact ⟨by omega, by omega⟩
      rw [hcold a htc hw]
      exact (memOf_eq_byteAt hpair ht htc).symm
  · intro a hac
    by_cases hw : w.covers a
    · exact hcovr a hw
    · have htc : t.covers a := by
        obtain ⟨ha1, ha2⟩ := hac
        rcases not_and_or.mp hw with hw' | hw'
        · push_neg at hw'
          exact ⟨by omega, by omega⟩
        · push_neg at hw'
          exact ⟨by omega, by omega⟩
      exact Or.inr ⟨t, ht, hcaught, htc⟩
  · by_cases hmlo : w.lo ≤ t.lo
    · rcases hlo with h | ⟨t2, ht2, hc2, he2⟩
      · left; omega
      · right; exact ⟨t2, ht2, hc2, by omega⟩
    · right; exact ⟨t, ht, hcaught, by omega⟩
  · by_cases hmhi : t.hi ≤ w.hi
    · rcases hhi with h | ⟨t2, ht2, hc2, he2⟩
      · left; omega
      · right; exact ⟨t2, ht2, hc2, by omega⟩
    · right; exact ⟨t, ht, hcaught, by omega⟩

theorem InsP_foldl {l : List Segment} {seg : Segment} (hwf : WFsegs l)
    (hsne : seg.data ≠ []) :
    ∀ (ts : List Segment) (w : Segment),
      (∀ t ∈ ts, t ∈ l ∧ (overlapsPt t seg.lo ∨ overlapsPt t (seg.hi + 1))) →
      InsP l seg w →
      InsP l seg (ts.foldl (fun w t => coalesce t w) w) ∧
      (ts.foldl (fun w t => coalesce t w) w).lo ≤ w.lo ∧
      w.hi ≤ (ts.foldl (fun w t => coalesce t w) w).hi ∧
      (∀ t ∈ ts, (ts.foldl (fun w t => coalesce t w) w).lo ≤ t.lo ∧
        t.hi ≤ (ts.foldl (fun w t => coalesce t w) w).hi) := by
  intro ts
  induction ts with
  | nil =>
    intro w _ hP
    exact ⟨hP, le_refl _, le_refl _, by simp⟩
  | cons t rest ih =>
    intro w hts hP
    obtain ⟨ht, hov⟩ := hts t (List.mem_cons_self _ _)
    obtain ⟨hP2, h1, h2, h3, h4⟩ := InsP_coalesce hwf hsne ht hov hP
    obtain ⟨hPf, hf1, hf2, hf3⟩ :=
      ih (coalesce t w) (fun x hx => hts x (List.mem_cons_of_mem _ hx)) hP2
    rw [List.foldl_cons]
    refine ⟨hPf, by omega, by omega, ?_⟩
    intro x hx
    rcases List.mem_cons.mp hx with rfl | hx2
    · exact ⟨by omega, by omega⟩
    · exact hf3 x hx2

theorem edgeHits_sound {l : List Segment} {seg : Segment} :
    ∀ t ∈ edgeHits l seg, t ∈ l ∧ (overlapsPt t seg.lo ∨ overlapsPt t (seg.hi + 1)) := by
  intro t ht
  unfold edgeHits at ht
  rcases List.mem_append.mp ht with h | h
  · obtain ⟨hm, hp⟩ := List.mem_filter.mp h
    exact ⟨hm, Or.inl (of_decide_eq_true hp)⟩
  · obtain ⟨hm, hp⟩ := List.mem_filter.mp h
    exact ⟨hm, Or.inr (of_decide_eq_true hp)⟩

/-- The inserted segment after coalescing satisfies the fold invariant and
bounds every edge-overlapping live segment. -/
theorem insertedSeg_spec {l : List Segment} {seg : Segment} (hwf : WFsegs l)
    (hsne : seg.data ≠ []) (hshi : seg.hi ≤ maxAddr) :
    InsP l seg (insertedSeg l seg) ∧
    (∀ t ∈ edgeHits l seg, (insertedSeg l seg).lo ≤ t.lo ∧ t.hi ≤ (insertedSeg l seg).hi) := by
  obtain ⟨hP, h1, h2, hb⟩ :=
    InsP_foldl hwf hsne (edgeHits l seg) seg edgeHits_sound (InsP_base hsne hshi)
  exact ⟨hP, hb⟩

/-! ## `insertSegment`: invariant preservation and byte-map semantics -/

theorem kept_mem {l : List Segment} {seg t : Segment} :
    t ∈ keptSegs l seg ↔ t ∈ l ∧ ¬ caughtBy t seg := by
  unfold keptSegs
  rw [List.mem_filter]
  constructor
  · rintro ⟨h1, h2⟩
    exact ⟨h1, of_decide_eq_true h2⟩
  · rintro ⟨h1, h2⟩
    exact ⟨h1, decide_eq_true h2⟩

theorem edge_mem {l : List Segment} {seg t : Segment} (ht : t ∈ l)
    (hov : overlapsPt t seg.lo ∨ overlapsPt t (seg.hi + 1)) : t ∈ edgeHits l seg := by
  unfold edgeHits
  rcases hov with h | h
  · exact List.mem_append_left _ (List.mem_filter.mpr ⟨ht, decide_eq_true h⟩)
  · exact List.mem_append_right _ (List.mem_filter.mpr ⟨ht, decide_eq_true h⟩)

theorem caught_bounds {t seg : Segment} (hthi : t.hi ≤ maxAddr)
    (hsne : seg.data ≠ []) (hshi : seg.hi ≤ maxAddr) (h : caughtBy t seg) :
    seg.lo ≤ t.hi + 1 ∧ t.lo ≤ seg.hi + 1 := by
  have h2 := seg.lo_le_hi hsne
  have h3 : t.lo ≤ t.hi + 1 := by
    have := t.length_eq
    omega
  rcases t.stopI_cases hthi with ⟨he, hb⟩ | ⟨he, hb⟩ <;>
    (unfold caughtBy containedIn overlapsPt at h; rw [he] at h;
     rcases h with ⟨ha1, ha2⟩ | ⟨ha1, ha2⟩ | ⟨ha1, ha2⟩) <;> omega

theorem contained_sub_range {t seg : Segment} (hthi : t.hi ≤ maxAddr)
    (hshi : seg.hi ≤ maxAddr) (h : containedIn t seg.lo seg.hi) :
    seg.lo ≤ t.lo ∧ t.hi ≤ seg.hi := by
  obtain ⟨h1, h2⟩ := h
  rcases t.stopI_cases hthi with ⟨he, hb⟩ | ⟨he, hb⟩ <;> rw [he] at h2 <;> omega

/-- Every kept segment is separated from the coalesced inserted segment. -/
theorem kept_separated_inserted {l : List Segment} {seg : Segment} (hwf : WFsegs l)
    (hsne : seg.data ≠ []) (hshi : seg.hi ≤ maxAddr) :
    ∀ k ∈ keptSegs l seg, separated k (insertedSeg l seg) := by
  intro k hk
  obtain ⟨hkl, hknc⟩ := kept_mem.mp hk
  obtain ⟨hall, hpair⟩ := hwf
  obtain ⟨hkne, hkhi⟩ := hall k hkl
  have hkll := k.lo_le_hi hkne
  have hksep : separated k seg :=
    (caught_or_separated k seg hkne hkhi hsne hshi).resolve_left hknc
  obtain ⟨⟨hune, hulo, huhi, humax, hbseg, hbold, hcovr, hulo2, huhi2⟩, hbnd⟩ :=
    insertedSeg_spec ⟨hall, hpair⟩ hsne hshi
  have hsll := seg.lo_le_hi hsne
  rcases hksep with hbelow | habove
  · left
    rcases hulo2 with he | ⟨t, htl, htc, he⟩
    · omega
    · by_cases hkt : k = t
      · subst hkt
        exact absurd htc hknc
      · have hsep := List.Pairwise.forall (fun _ _ h => separated_symm h) hpair hkl htl hkt
        obtain ⟨htne, hthi⟩ := hall t htl
        have htll := t.lo_le_hi htne
        have hcb := caught_bounds hthi hsne hshi htc
        rcases hsep with h | h <;> omega
  · right
    rcases huhi2 with he | ⟨t, htl, htc, he⟩
    · omega
    · by_cases hkt : k = t
      · subst hkt
        exact absurd htc hknc
      · have hsep := List.Pairwise.forall (fun _ _ h => separated_symm h) hpair hkl htl hkt
        obtain ⟨htne, hthi⟩ := hall t htl
        have htll := t.lo_le_hi htne
        have hcb := caught_bounds hthi hsne hshi htc
        rcases hsep with h | h <;> omega

/-- `insertSegment` preserves the live-list invariant. -/
theorem insertLive_WF {l : List Segment} {seg : Segment} (hwf : WFsegs l)
    (hsne : seg.data ≠ []) (hshi : seg.hi ≤ maxAddr) :
    WFsegs (keptSegs l seg ++ [insertedSeg l seg]) := by
  obtain ⟨hall, hpair⟩ := hwf
  obtain ⟨⟨hune, hulo, huhi, humax, hbseg, hbold, hcovr, hulo2, huhi2⟩, hbnd⟩ :=
    insertedSeg_spec ⟨hall, hpair⟩ hsne hshi
  constructor
  · intro s hs
    rcases List.mem_append.mp hs with h | h
    · exact hall s (kept_mem.mp h).1
    · rcases List.mem_singleton.mp h with rfl
      exact ⟨hune, humax⟩
  · rw [List.pairwise_append]
    refine ⟨hpair.sublist (List.filter_sublist _), List.pairwise_singleton _ _, ?_⟩
    intro k hk u hu
    rcases List.mem_singleton.mp hu with rfl
    exact kept_separated_inserted ⟨hall, hpair⟩ hsne hshi k hk

theorem memOf_singleton_of_covers {u : Segment} {a : Int} (h : u.covers a) :
    memOf [u] a = u.byteAt a := by
  unfold memOf
  simp [h]

/-- Byte-map semantics of `insertSegment`'s rebuilt live list: the new
segment's bytes on its range, the old store's bytes elsewhere. -/
theorem insertLive_memOf {l : List Segment} {seg : Segment} (hwf : WFsegs l)
    (hsne : seg.data ≠ []) (hshi : seg.hi ≤ maxAddr) (a : Int) :
    memOf (keptSegs l seg ++ [insertedSeg l seg]) a =
      if seg.covers a then seg.byteAt a else memOf l a := by
  obtain ⟨hall, hpair⟩ := hwf
  obtain ⟨⟨hune, hulo, huhi, humax, hbseg, hbold, hcovr, hulo2, huhi2⟩, hbnd⟩ :=
    insertedSeg_spec ⟨hall, hpair⟩ hsne hshi
  by_cases hseg : seg.covers a
  · rw [if_pos hseg]
    have hkept : ∀ k ∈ keptSegs l seg, ¬ k.covers a := by
      intro k hk
      obtain ⟨hkl, hknc⟩ := kept_mem.mp hk
      obtain ⟨hkne, hkhi⟩ := hall k hkl
      have hksep : separated k seg :=
        (caught_or_separated k seg hkne hkhi hsne hshi).resolve_left hknc
      obtain ⟨hs1, hs2⟩ := hseg
      rintro ⟨hc1, hc2⟩
      rcases hksep with h | h <;> omega
    rw [memOf_append_right hkept]
    have hucov : (insertedSeg l seg).covers a := by
      obtain ⟨hs1, hs2⟩ := hseg
      exact ⟨by omega, by omega⟩
    rw [memOf_singleton_of_covers hucov]
    exact hbseg a hseg
  · rw [if_neg hseg]
    by_cases hex : ∃ t, t ∈ l ∧ t.covers a
    · obtain ⟨t, htl, htc⟩ := hex
      obtain ⟨htne, hthi⟩ := hall t htl
      by_cases hcaught : caughtBy t seg
      · have hedge : overlapsPt t seg.lo ∨ overlapsPt t (seg.hi + 1) := by
          rcases hcaught with h | h | h
          · exfalso
            have hsub := contained_sub_range hthi hshi h
            obtain ⟨htc1, htc2⟩ := htc
            exact hseg ⟨by omega, by omega⟩
          · exact Or.inl h
          · exact Or.inr h
        have hmem := edge_mem htl hedge
        have hub := hbnd t hmem
        have hucov : (insertedSeg l seg).covers a := by
          obtain ⟨htc1, htc2⟩ := htc
          exact ⟨by omega, by omega⟩
        have hkept : ∀ k ∈ keptSegs l seg, ¬ k.covers a := by
          intro k hk hkc
          obtain ⟨hkl, hknc⟩ := kept_mem.mp hk
          have hkeq : k = t := covers_unique hpair hkl htl hkc htc
          subst hkeq
          exact hknc hcaught
        rw [memOf_append_right hkept, memOf_singleton_of_covers hucov]
        exact hbold a hucov hseg
      · have hkmem : t ∈ keptSegs l seg := kept_mem.mpr ⟨htl, hcaught⟩
        have hwfnew := insertLive_WF ⟨hall, hpair⟩ hsne hshi
        rw [memOf_eq_byteAt hwfnew.2 (List.mem_append_left _ hkmem) htc,
          memOf_eq_byteAt hpair htl htc]
    · push_neg at hex
      rw [memOf_eq_zero hex]
      refine memOf_eq_zero ?_
      intro x hx hxc
      rcases List.mem_append.mp hx with h | h
      · exact hex x (kept_mem.mp h).1 hxc
      · rcases List.mem_singleton.mp h with rfl
        rcases hcovr a hxc with h1 | ⟨t, htl, hcg, htc⟩
        · exact hseg h1
        · exact hex t htl htc

/-! ## The lazy-allocation window -/

theorem lowerStep_eq (addr : Int) (acc : Option Segment) (t : Segment) :
    (lowerStep addr acc t = acc ∧ (acc = none → ¬ t.stopI ≤ addr) ∧
       (∀ m0, acc = some m0 → (¬ t.stopI ≤ addr ∨ t.stopI ≤ m0.stopI))) ∨
    (lowerStep addr acc t = some t ∧ t.stopI ≤ addr ∧
       (∀ m0, acc = some m0 → m0.stopI < t.stopI)) := by
  cases acc with
  | none =>
    by_cases hc : t.stopI ≤ addr
    · right
      refine ⟨by simp [lowerStep, hc], hc, fun m0 h0 => by cases h0⟩
    · left
      refine ⟨by simp [lowerStep, hc], fun _ => hc, fun m0 h0 => by cases h0⟩
  | some m0 =>
    by_cases hc : t.stopI ≤ addr
    · by_cases hgt : t.stopI > m0.stopI
      · right
        refine ⟨by simp [lowerStep, hc, hgt], hc, ?_⟩
        intro m1 h1
        cases h1
        omega
      · left
        refine ⟨by simp [lowerStep, hc, hgt], ?_, ?_⟩
        · intro h
          cases h
        · intro m1 h1
          cases h1
          right
          omega
    · left
      refine ⟨by simp [lowerStep, hc], ?_, fun m1 _ => Or.inl hc⟩
      intro h
      cases h

theorem upperStep_eq (addr : Int) (acc : Option Segment) (t : Segment) :
    (upperStep addr acc t = acc ∧ (acc = none → ¬ t.lo > addr) ∧
       (∀ m0, acc = some m0 → (¬ t.lo > addr ∨ m0.lo ≤ t.lo))) ∨
    (upperStep addr acc t = some t ∧ t.lo > addr ∧
       (∀ m0, acc = some m0 → t.lo < m0.lo)) := by
  cases acc with
  | none =>
    by_cases hc : t.lo > addr
    · right
      refine ⟨by simp [upperStep, hc], hc, fun m0 h0 => by cases h0⟩
    · left
      refine ⟨by simp [upperStep, hc], fun _ => hc, fun m0 h0 => by cases h0⟩
  | some m0 =>
    by_cases hc : t.lo > addr
    · by_cases hgt : t.lo < m0.lo
      · right
        refine ⟨by simp [upperStep, hc, hgt], hc, ?_⟩
        intro m1 h1
        cases h1
        omega
      · left
        refine ⟨by simp [upperStep, hc, hgt], ?_, ?_⟩
        · intro h
          cases h
        · intro m1 h1
          cases h1
          right
          omega
    · left
      refine ⟨by simp [upperStep, hc], ?_, fun m1 _ => Or.inl hc⟩
      intro h
      cases h

theorem lowerFold_spec (addr : Int) :
    ∀ (l : List Segment) (acc : Option Segment),
      (l.foldl (lowerStep addr) acc = none →
        acc = none ∧ ∀ t ∈ l, ¬ (t.stopI ≤ addr)) ∧
      (∀ m, l.foldl (lowerStep addr) acc = some m →
        ((m ∈ l ∧ m.stopI ≤ addr) ∨ acc = some m) ∧
        (∀ t ∈ l, t.stopI ≤ addr → t.stopI ≤ m.stopI) ∧
        (∀ m0, acc = some m0 → m0.stopI ≤ m.stopI)) := by
  intro l
  induction l with
  | nil =>
    intro acc
    refine ⟨fun h => ⟨h, by simp⟩, fun m hm => ⟨Or.inr hm, by simp, ?_⟩⟩
    intro m0 h0
    rw [h0] at hm
    cases hm
    exact le_refl _
  | cons t rest ih =>
    intro acc
    rw [List.foldl_cons]
    constructor
    · intro hnone
      obtain ⟨hacc, hall⟩ := (ih (lowerStep addr acc t)).1 hnone
      rcases lowerStep_eq addr acc t with ⟨heq, hnc, _⟩ | ⟨heq, hc, _⟩
      · rw [heq] at hacc
        refine ⟨hacc, ?_⟩
        intro x hx
        rcases List.mem_cons.mp hx with rfl | hx2
        · exact hnc hacc
        · exact hall x hx2
      · rw [heq] at hacc
        cases hacc
    · intro m hm
      obtain ⟨hsrc, hall, hmono⟩ := (ih (lowerStep addr acc t)).2 m hm
      rcases lowerStep_eq addr acc t with ⟨heq, hnc, himp⟩ | ⟨heq, hc, hlt⟩
      · rw [heq] at hsrc hmono
        refine ⟨?_, ?_, hmono⟩
        · rcases hsrc with ⟨h1, h2⟩ | h1
          · exact Or.inl ⟨List.mem_cons_of_mem _ h1, h2⟩
          · exact Or.inr h1
        · intro x hx hcx
          rcases List.mem_cons.mp hx with rfl | hx2
          · cases hacc : acc with
            | none => exact absurd hcx (hnc hacc)
            | some m0 =>
              rcases himp m0 hacc with h | h
              · exact absurd hcx h
              · have := hmono m0 hacc
                omega
          · exact hall x hx2 hcx
      · have hts : t.stopI ≤ m.stopI := hmono t heq
        refine ⟨?_, ?_, ?_⟩
        · rcases hsrc with ⟨h1, h2⟩ | h1
          · exact Or.inl ⟨List.mem_cons_of_mem _ h1, h2⟩
          · rw [heq] at h1
            cases h1
            exact Or.inl ⟨List.mem_cons_self _ _, hc⟩
        · intro x hx hcx
          rcases List.mem_cons.mp hx with rfl | hx2
          · exact hts
          · exact hall x hx2 hcx
        · intro m0 h0
          have := hlt m0 h0
          omega

theorem upperFold_spec (addr : Int) :
    ∀ (l : List Segment) (acc : Option Segment),
      (l.foldl (upperStep addr) acc = none →
        acc = none ∧ ∀ t ∈ l, ¬ (t.lo > addr)) ∧
      (∀ m, l.foldl (upperStep addr) acc = some m →
        ((m ∈ l ∧ m.lo > addr) ∨ acc = some m) ∧
        (∀ t ∈ l, t.lo > addr → m.lo ≤ t.lo) ∧
        (∀ m0, acc = some m0 → m.lo ≤ m0.lo)) := by
  intro l
  induction l with
  | nil =>
    intro acc
    refine ⟨fun h => ⟨h, by simp⟩, fun m hm => ⟨Or.inr hm, by simp, ?_⟩⟩
    intro m0 h0
    rw [h0] at hm
    cases hm
    exact le_refl _
  | cons t rest ih =>
    intro acc
    rw [List.foldl_cons]
    constructor
    · intro hnone
      obtain ⟨hacc, hall⟩ := (ih (upperStep addr acc t)).1 hnone
      rcases upperStep_eq addr acc t with ⟨heq, hnc, _⟩ | ⟨heq, hc, _⟩
      · rw [heq] at hacc
        refine ⟨hacc, ?_⟩
        intro x hx
        rcases List.mem_cons.mp hx with rfl | hx2
        · exact hnc hacc
        · exact hall x hx2
      · rw [heq] at hacc
        cases hacc
    · intro m hm
      obtain ⟨hsrc, hall, hmono⟩ := (ih (upperStep addr acc t)).2 m hm
      rcases upperStep_eq addr acc t with ⟨heq, hnc, himp⟩ | ⟨heq, hc, hlt⟩
      · rw [heq] at hsrc hmono
        refine ⟨?_, ?_, hmono⟩
        · rcases hsrc with ⟨h1, h2⟩ | h1
          · exact Or.inl ⟨List.mem_cons_of_mem _ h1, h2⟩
          · exact Or.inr h1
        · intro x hx hcx
          rcases List.mem_cons.mp hx with rfl | hx2
          · cases hacc : acc with
            | none => exact absurd hcx (hnc hacc)
            | some m0 =>
              rcases himp m0 hacc with h | h
              · exact absurd hcx h
              · have := hmono m0 hacc
                omega
          · exact hall x hx2 hcx
      · have hts : m.lo ≤ t.lo := hmono t heq
        refine ⟨?_, ?_, ?_⟩
        · rcases hsrc with ⟨h1, h2⟩ | h1
          · exact Or.inl ⟨List.mem_cons_of_mem _ h1, h2⟩
          · rw [heq] at h1
            cases h1
            exact Or.inl ⟨List.mem_cons_self _ _, hc⟩
        · intro x hx hcx
          rcases List.mem_cons.mp hx with rfl | hx2
          · exact hts
          · exact hall x hx2 hcx
        · intro m0 h0
          have := hlt m0 h0
          omega

/-- The per-segment classification used by `createMissingSegment`: when no
live segment covers `addr`, every live segment lies entirely below (with an
unclamped stored stop at most `addr`) or entirely above `addr`. -/
theorem missing_classify {st : Store} {addr : Nat} (hwf : WFsegs st.live)
    (haddr : (addr : Int) ≤ maxAddr)
    (hnc : ∀ t ∈ st.live, ¬ t.covers (addr : Int)) :
    ∀ t ∈ st.live, (t.stopI = t.hi + 1 ∧ t.stopI ≤ (addr : Int)) ∨ ((addr : Int) < t.lo) := by
  obtain ⟨hall, hpair⟩ := hwf
  intro t ht
  obtain ⟨htne, hthi⟩ := hall t ht
  have htll := t.lo_le_hi htne
  have hn := hnc t ht
  unfold Segment.covers at hn
  by_cases hcase : (addr : Int) < t.lo
  · exact Or.inr hcase
  · left
    push_neg at hcase
    have hhi : t.hi < (addr : Int) := by
      by_contra hcon
      push_neg at hcon
      exact hn ⟨hcase, hcon⟩
    rcases t.stopI_cases hthi with ⟨he, hb⟩ | ⟨he, hb⟩
    · exact ⟨he, by omega⟩
    · omega

theorem missingWindow_bounds (st : Store) (addr : Nat) (hwf : WFsegs st.live)
    (haddr : (addr : Int) ≤ maxAddr) :
    0 ≤ (missingWindow st addr).1 ∧ (missingWindow st addr).1 ≤ (addr : Int) ∧
    (addr : Int) < (missingWindow st addr).2 ∧ (missingWindow st addr).2 ≤ maxAddr + 1 := by
  obtain ⟨hall, hpair⟩ := hwf
  have hhalf : (0 : Int) ≤ ((st.minSegSize / 2 : Nat) : Int) := Int.ofNat_nonneg _
  have haddr0 : (0 : Int) ≤ (addr : Int) := Int.ofNat_nonneg _
  cases hlow : lowerNeighbor st.live (addr : Int) with
  | none =>
    cases hup : upperNeighbor st.live (addr : Int) with
    | none =>
      simp only [missingWindow, hlow, hup]
      split_ifs <;> refine ⟨by omega, by omega, by omega, by omega⟩
    | some u0 =>
      have hup2 : List.foldl (upperStep (addr : Int)) none st.live = some u0 := hup
      obtain ⟨hsrc, humin, hdum⟩ := (upperFold_spec (addr : Int) st.live none).2 u0 hup2
      rcases hsrc with ⟨humem, hugt⟩ | h
      · simp only [missingWindow, hlow, hup]
        split_ifs <;> refine ⟨by omega, by omega, by omega, by omega⟩
      · cases h
  | some l0 =>
    have hlow2 : List.foldl (lowerStep (addr : Int)) none st.live = some l0 := hlow
    obtain ⟨hsrc, hlmax, hdum⟩ := (lowerFold_spec (addr : Int) st.live none).2 l0 hlow2
    rcases hsrc with ⟨hlmem, hlle⟩ | h
    · obtain ⟨hlne, hlhi⟩ := hall l0 hlmem
      have hllen := l0.length_eq
      have hllo := l0.lo_nonneg
      have hlnn : 0 ≤ l0.stopI := by
        rcases l0.stopI_cases hlhi with ⟨he, hb⟩ | ⟨he, hb⟩ <;> omega
      cases hup : upperNeighbor st.live (addr : Int) with
      | none =>
        simp only [missingWindow, hlow, hup]
        split_ifs <;> refine ⟨by omega, by omega, by omega, by omega⟩
      | some u0 =>
        have hup2 : List.foldl (upperStep (addr : Int)) none st.live = some u0 := hup
        obtain ⟨hsrc2, humin, hdum2⟩ := (upperFold_spec (addr : Int) st.live none).2 u0 hup2
        rcases hsrc2 with ⟨humem, hugt⟩ | h
        · simp only [missingWindow, hlow, hup]
          split_ifs <;> refine ⟨by omega, by omega, by omega, by omega⟩
        · cases h
    · cases h

/-- The candidate window never overlaps an existing live segment. -/
theorem missingWindow_no_overlap (st : Store) (addr : Nat) (hwf : WFsegs st.live)
    (haddr : (addr : Int) ≤ maxAddr)
    (hnc : ∀ t ∈ st.live, ¬ t.covers (addr : Int)) :
    ∀ t ∈ st.live, t.hi < (missingWindow st addr).1 ∨ (missingWindow st addr).2 ≤ t.lo := by
  have hclass := missing_classify hwf haddr hnc
  obtain ⟨hall, hpair⟩ := hwf
  have hhalf : (0 : Int) ≤ ((st.minSegSize / 2 : Nat) : Int) := Int.ofNat_nonneg _
  have haddr0 : (0 : Int) ≤ (addr : Int) := Int.ofNat_nonneg _
  intro t ht
  obtain ⟨htne, hthi⟩ := hall t ht
  have htll := t.lo_le_hi htne
  cases hlow : lowerNeighbor st.live (addr : Int) with
  | none =>
    have hlnone := ((lowerFold_spec (addr : Int) st.live none).1 hlow).2
    have htup : (addr : Int) < t.lo := by
      rcases hclass t ht with ⟨he, hle⟩ | h
      · exact absurd hle (hlnone t ht)
      · exact h
    cases hup : upperNeighbor st.live (addr : Int) with
    | none =>
      have hunone := ((upperFold_spec (addr : Int) st.live none).1 hup).2
      exact absurd htup (hunone t ht)
    | some u0 =>
      have hup2 : List.foldl (upperStep (addr : Int)) none st.live = some u0 := hup
      obtain ⟨hsrc, humin, hdum⟩ := (upperFold_spec (addr : Int) st.live none).2 u0 hup2
      rcases hsrc with ⟨humem, hugt⟩ | h
      · have hut := humin t ht htup
        right
        simp only [missingWindow, hlow, hup]
        split_ifs <;> omega
      · cases h
  | some l0 =>
    have hlow2 : List.foldl (lowerStep (addr : Int)) none st.live = some l0 := hlow
    obtain ⟨hsrc, hlmax, hdum⟩ := (lowerFold_spec (addr : Int) st.live none).2 l0 hlow2
    rcases hsrc with ⟨hlmem, hlle⟩ | hx
    · rcases hclass t ht with ⟨he, hle⟩ | htup
      · have hts := hlmax t ht hle
        left
        simp only [missingWindow, hlow]
        split_ifs <;> omega
      · cases hup : upperNeighbor st.live (addr : Int) with
        | none =>
          have hunone := ((upperFold_spec (addr : Int) st.live none).1 hup).2
          exact absurd htup (hunone t ht)
        | some u0 =>
          have hup2 : List.foldl (upperStep (addr : Int)) none st.live = some u0 := hup
          obtain ⟨hsrc2, humin, hdum2⟩ := (upperFold_spec (addr : Int) st.live none).2 u0 hup2
          rcases hsrc2 with ⟨humem, hugt⟩ | hx2
          · have hut := humin t ht htup
            right
            simp only [missingWindow, hlow, hup]
            split_ifs <;> omega
          · cases hx2
    · cases hx

/-! ## Address resolution -/

theorem Segment.stopI_le (t : Segment) : t.stopI ≤ t.hi + 1 := by
  unfold Segment.stopI
  split_ifs <;> omega

theorem overlapsPt_of_covers {t : Segment} {a : Int} (hthi : t.hi ≤ maxAddr)
    (h : t.covers a) : overlapsPt t a := by
  obtain ⟨h1, h2⟩ := h
  rcases t.stopI_cases hthi with ⟨he, hb⟩ | ⟨he, hb⟩ <;>
    exact ⟨h1, by omega⟩

theorem overlapsPt_unique {l : List Segment} (hwf : WFsegs l) {t1 t2 : Segment} {p : Int}
    (h1 : t1 ∈ l) (h2 : t2 ∈ l) (ho1 : overlapsPt t1 p) (ho2 : overlapsPt t2 p) :
    t1 = t2 := by
  obtain ⟨hall, hpair⟩ := hwf
  by_contra hne
  have hsep := List.Pairwise.forall (fun _ _ h => separated_symm h) hpair h1 h2 hne
  obtain ⟨hx1, hx2⟩ := ho1
  obtain ⟨hy1, hy2⟩ := ho2
  have hs1 := t1.stopI_le
  have hs2 := t2.stopI_le
  rcases hsep with h | h <;> omega

/-- A positive (re-validated) `contains` hit is a live segment covering the
address. -/
theorem containsAddr_some {st : Store} {a : Int} {s : Segment}
    (h : containsAddr st a = some s) : s ∈ st.live ∧ s.covers a := by
  unfold containsAddr at h
  split at h
  · cases h
  · rename_i t rest hfil
    by_cases hc : t.covers a
    · rw [if_pos hc] at h
      have htm : t ∈ st.live.filter (fun t => decide (overlapsPt t a)) := by
        rw [hfil]
        exact List.mem_cons_self _ _
      cases h
      exact ⟨(List.mem_filter.mp htm).1, hc⟩
    · rw [if_neg hc] at h
      cases h

/-- Under the invariant, `contains` finds the covering segment whenever one
exists. -/
theorem containsAddr_of_covers {st : Store} {a : Int} {t : Segment} (hwf : WFsegs st.live)
    (ht : t ∈ st.live) (hc : t.covers a) : containsAddr st a = some t := by
  have hthi := (hwf.1 t ht).2
  have hov : overlapsPt t a := overlapsPt_of_covers hthi hc
  have htf : t ∈ st.live.filter (fun t => decide (overlapsPt t a)) :=
    List.mem_filter.mpr ⟨ht, decide_eq_true hov⟩
  unfold containsAddr
  split
  · rename_i hfil
    rw [hfil] at htf
    cases htf
  · rename_i h0 rest hfil
    have h0f : h0 ∈ st.live.filter (fun t => decide (overlapsPt t a)) := by
      rw [hfil]
      exact List.mem_cons_self _ _
    obtain ⟨h0m, h0p⟩ := List.mem_filter.mp h0f
    have h0ov : overlapsPt h0 a := of_decide_eq_true h0p
    have heq : h0 = t := overlapsPt_unique hwf h0m ht h0ov hov
    subst heq
    rw [if_pos hc]

theorem containsAddr_none {st : Store} {a : Int} (hwf : WFsegs st.live)
    (h : containsAddr st a = none) : ∀ t ∈ st.live, ¬ t.covers a := by
  intro t ht hc
  rw [containsAddr_of_covers hwf ht hc] at h
  cases h

/-! ## Store-level `insertSegment` -/

theorem insertSegment_nil {st : Store} {seg : Segment} (h : seg.data = []) :
    insertSegment st seg = st := by
  unfold insertSegment
  rw [if_pos (by rw [h]; rfl)]

theorem insertSegment_store_spec {st : Store} {seg : Segment} (hwf : WFStore st)
    (hsne : seg.data ≠ []) (hshi : seg.hi ≤ maxAddr) :
    WFStore (insertSegment st seg) ∧
    (insertSegment st seg).minSegSize = st.minSegSize ∧
    MRUOk (insertSegment st seg) ∧
    (∀ a : Int, memOf (insertSegment st seg).live a =
      if seg.covers a then seg.byteAt a else memOf st.live a) := by
  obtain ⟨hwfl, hmru, hodd, h3⟩ := hwf
  have hlen : seg.data.length ≠ 0 := fun h => hsne (List.length_eq_zero.mp h)
  have hins : insertSegment st seg =
      { st with live := keptSegs st.live seg ++ [insertedSeg st.live seg],
                mru := some (insertedSeg st.live seg) } := by
    unfold insertSegment
    rw [if_neg hlen]
  have hwfnew := insertLive_WF hwfl hsne hshi
  have humem : insertedSeg st.live seg ∈
      keptSegs st.live seg ++ [insertedSeg st.live seg] :=
    List.mem_append_right _ (List.mem_singleton.mpr rfl)
  refine ⟨?_, by rw [hins], ?_, ?_⟩
  · rw [hins]
    refine ⟨hwfnew, ?_, hodd, h3⟩
    intro m hm
    cases hm
    exact Or.inl humem
  · rw [hins]
    intro m hm
    cases hm
    exact humem
  · intro a
    rw [hins]
    exact insertLive_memOf hwfl hsne hshi a

/-! ## `createMissingSegment` -/

theorem createMissing_spec (st : Store) (addr : Nat) (hwf : WFStore st)
    (haddr : (addr : Int) ≤ maxAddr)
    (hnc : ∀ t ∈ st.live, ¬ t.covers (addr : Int)) :
    WFStore (createMissingSegment st addr) ∧
    (createMissingSegment st addr).minSegSize = st.minSegSize ∧
    MRUOk (createMissingSegment st addr) ∧
    (∃ u, (createMissingSegment st addr).mru = some u ∧
      u ∈ (createMissingSegment st addr).live ∧ u.covers (addr : Int)) ∧
    (∀ a : Int, memOf (createMissingSegment st addr).live a = memOf st.live a) := by
  obtain ⟨hb0, hb1, hb2, hb3⟩ := missingWindow_bounds st addr hwf.1 haddr
  have hno := missingWindow_no_overlap st addr hwf.1 haddr hnc
  set w := missingWindow st addr with hw
  set wseg : Segment := ⟨w.1.toNat, List.replicate (w.2 - w.1).toNat 0⟩ with hwseg
  have hwlo : wseg.lo = w.1 := by
    show ((w.1.toNat : Nat) : Int) = w.1
    exact Int.toNat_of_nonneg hb0
  have hwlen : (wseg.data.length : Int) = w.2 - w.1 := by
    show ((List.replicate (w.2 - w.1).toNat 0).length : Int) = w.2 - w.1
    rw [List.length_replicate]
    exact Int.toNat_of_nonneg (by omega)
  have hwhi : wseg.hi = w.2 - 1 := by
    have := wseg.length_eq
    omega
  have hwne : wseg.data ≠ [] := by
    intro h
    rw [h] at hwlen
    simp at hwlen
    omega
  have hwmax : wseg.hi ≤ maxAddr := by omega
  have hcreq : createMissingSegment st addr = insertSegment st wseg := rfl
  obtain ⟨hwf2, hmin2, hmru2, hmem2⟩ := insertSegment_store_spec hwf hwne hwmax
  rw [← hcreq] at hwf2 hmin2 hmru2 hmem2
  refine ⟨hwf2, hmin2, hmru2, ?_, ?_⟩
  · have hmru : (createMissingSegment st addr).mru = some (insertedSeg st.live wseg) := by
      rw [hcreq]
      unfold insertSegment
      rw [if_neg (fun h => hwne (List.length_eq_zero.mp h))]
    refine ⟨insertedSeg st.live wseg, hmru, hmru2 _ hmru, ?_⟩
    obtain ⟨⟨hune, hulo, huhi, humax2, hbseg, hbold, hcovr, hulo2, huhi2⟩, hbnd⟩ :=
      insertedSeg_spec hwf.1 hwne hwmax
    exact ⟨by omega, by omega⟩
  · intro a
    rw [hmem2 a]
    by_cases hc : wseg.covers a
    · rw [if_pos hc]
      have hmz : memOf st.live a = 0 := by
        refine memOf_eq_zero ?_
        intro t ht htc
        obtain ⟨htc1, htc2⟩ := htc
        obtain ⟨hcc1, hcc2⟩ := hc
        rcases hno t ht with h | h <;> omega
      rw [hmz]
      obtain ⟨hcc1, hcc2⟩ := hc
      have hidx : (a - wseg.lo).toNat < (w.2 - w.1).toNat := by omega
      show (List.replicate (w.2 - w.1).toNat 0).getD (a - wseg.lo).toNat 0 = 0
      rw [getD_replicate_eq _ _ _ _ hidx]
    · rw [if_neg hc]

theorem absMem_mru_covers {st : Store} {m : Segment} {a : Int}
    (hm : st.mru = some m) (hc : m.covers a) : absMem st a = m.byteAt a := by
  simp only [absMem, hm]
  rw [if_pos hc]

theorem absMem_mru_not {st : Store} {m : Segment} {a : Int}
    (hm : st.mru = some m) (hc : ¬ m.covers a) : absMem st a = memOf st.live a := by
  simp only [absMem, hm]
  rw [if_neg hc]

theorem absMem_mru_none {st : Store} {a : Int} (hm : st.mru = none) :
    absMem st a = memOf st.live a := by
  simp only [absMem, hm]

/-- Under a healthy MRU slot the observable byte map is exactly that of the
live segment list: the cache is a pure hint. -/
theorem absMem_eq_memOf {st : Store} (hwf : WFsegs st.live) (hok : MRUOk st) (a : Int) :
    absMem st a = memOf st.live a := by
  cases hm : st.mru with
  | none => exact absMem_mru_none hm
  | some m =>
    by_cases hc : m.covers a
    · rw [absMem_mru_covers hm hc]
      exact (memOf_eq_byteAt hwf.2 (hok m hm) hc).symm
    · exact absMem_mru_not hm hc

theorem resolve0_mru_covers {st : Store} {m : Segment} {a : Int}
    (hm : st.mru = some m) (hc : m.covers a) : resolve0 st a = some m := by
  simp only [resolve0, hm]
  rw [if_pos hc]

theorem resolve0_mru_not {st : Store} {m : Segment} {a : Int}
    (hm : st.mru = some m) (hc : ¬ m.covers a) : resolve0 st a = containsAddr st a := by
  simp only [resolve0, hm]
  rw [if_neg hc]

theorem resolve0_mru_none {st : Store} {a : Int} (hm : st.mru = none) :
    resolve0 st a = containsAddr st a := by
  simp only [resolve0, hm]

theorem resolve0_some_spec {st : Store} {a : Int} {s : Segment} (hwf : WFStore st)
    (h : resolve0 st a = some s) :
    s.covers a ∧ (s ∈ st.live ∨ (st.live = [] ∧ st.mru = some s)) ∧
    (∀ m, st.mru = some m → (m = s ∨ ¬ m.covers a)) ∧
    s.byteAt a = absMem st a := by
  cases hm : st.mru with
  | none =>
    rw [resolve0_mru_none hm] at h
    obtain ⟨hmem, hcov⟩ := containsAddr_some h
    refine ⟨hcov, Or.inl hmem, ?_, ?_⟩
    · intro m hmm
      cases hmm
    · rw [absMem_mru_none hm]
      exact (memOf_eq_byteAt hwf.1.2 hmem hcov).symm
  | some m =>
    by_cases hc : m.covers a
    · rw [resolve0_mru_covers hm hc] at h
      cases h
      refine ⟨hc, ?_, ?_, (absMem_mru_covers hm hc).symm⟩
      · rcases hwf.2.1 _ hm with h1 | ⟨h1, _⟩
        · exact Or.inl h1
        · exact Or.inr ⟨h1, rfl⟩
      · intro m1 hm1
        cases hm1
        exact Or.inl rfl
    · rw [resolve0_mru_not hm hc] at h
      obtain ⟨hmem, hcov⟩ := containsAddr_some h
      refine ⟨hcov, Or.inl hmem, ?_, ?_⟩
      · intro m1 hm1
        cases hm1
        exact Or.inr hc
      · rw [absMem_mru_not hm hc]
        exact (memOf_eq_byteAt hwf.1.2 hmem hcov).symm

theorem resolve0_none_spec {st : Store} {a : Int} (hwf : WFStore st)
    (h : resolve0 st a = none) :
    (∀ t ∈ st.live, ¬ t.covers a) ∧ (∀ m, st.mru = some m → ¬ m.covers a) ∧
    absMem st a = 0 := by
  cases hm : st.mru with
  | none =>
    rw [resolve0_mru_none hm] at h
    have hnc := containsAddr_none hwf.1 h
    refine ⟨hnc, ?_, ?_⟩
    · intro m hmm
      cases hmm
    · rw [absMem_mru_none hm]
      exact memOf_eq_zero hnc
  | some m =>
    by_cases hc : m.covers a
    · rw [resolve0_mru_covers hm hc] at h
      cases h
    · rw [resolve0_mru_not hm hc] at h
      have hnc := containsAddr_none hwf.1 h
      refine ⟨hnc, ?_, ?_⟩
      · intro m1 hm1
        cases hm1
        exact hc
      · rw [absMem_mru_not hm hc]
        exact memOf_eq_zero hnc

/-- Total-correctness of `segmentForAddress`: under the invariant it always
returns (with at most one `createMissingSegment` retry, as in the embedding's
single unfolding) a segment covering the address, whose stored byte at the
address is the observable byte, preserving the invariant and the live byte
map. -/
theorem segmentForAddress_spec (st : Store) (a : Nat) (hwf : WFStore st)
    (ha : (a : Int) ≤ maxAddr) :
    ∃ s st', segmentForAddress st a = some (s, st') ∧
      s.covers (a : Int) ∧ WFStore st' ∧ st'.minSegSize = st.minSegSize ∧
      (∀ b : Int, memOf st'.live b = memOf st.live b) ∧
      s.byteAt (a : Int) = absMem st (a : Int) ∧
      (MRUOk st → MRUOk st') ∧
      ((s ∈ st'.live ∧ ∀ m, st'.mru = some m → (m = s ∨ ¬ m.covers (a : Int))) ∨
        (st'.live = [] ∧ st'.mru = some s)) := by
  cases hr : resolve0 st (a : Int) with
  | some s =>
    obtain ⟨hcov, hmem, hmru, hbyte⟩ := resolve0_some_spec hwf hr
    have heq : segmentForAddress st a = some (s, st) := by
      simp only [segmentForAddress, hr]
    refine ⟨s, st, heq, hcov, hwf, rfl, fun _ => rfl, hbyte, fun h => h, ?_⟩
    rcases hmem with h1 | ⟨h1, h2⟩
    · exact Or.inl ⟨h1, hmru⟩
    · exact Or.inr ⟨h1, h2⟩
  | none =>
    obtain ⟨hnc, hmnc, habs0⟩ := resolve0_none_spec hwf hr
    obtain ⟨hwf2, hmin2, hok2, ⟨u, hu1, hu2, hu3⟩, hmem2⟩ :=
      createMissing_spec st a hwf ha hnc
    have hr2 : resolve0 (createMissingSegment st a) (a : Int) = some u :=
      resolve0_mru_covers hu1 hu3
    have heq : segmentForAddress st a = some (u, createMissingSegment st a) := by
      simp only [segmentForAddress, hr, hr2]
    refine ⟨u, createMissingSegment st a, heq, hu3, hwf2, hmin2, hmem2, ?_, fun _ => hok2, ?_⟩
    · rw [habs0]
      have hby : memOf (createMissingSegment st a).live (a : Int) = u.byteAt (a : Int) :=
        memOf_eq_byteAt hwf2.1.2 hu2 hu3
      rw [← hby, hmem2]
      exact memOf_eq_zero hnc
    · left
      refine ⟨hu2, ?_⟩
      intro m hm
      rw [hu1] at hm
      cases hm
      exact Or.inl rfl

/-- `readByte` returns the observable byte at the address and leaves the
observable live byte map unchanged. -/
theorem readByte_spec (st : Store) (a : Nat) (hwf : WFStore st)
    (ha : (a : Int) ≤ maxAddr) :
    ∃ st', readByte st a = some (absMem st (a : Int), st') ∧ WFStore st' ∧
      st'.minSegSize = st.minSegSize ∧
      (∀ b : Int, memOf st'.live b = memOf st.live b) ∧
      (MRUOk st → MRUOk st') := by
  obtain ⟨s, st', heq, hcov, hwf2, hmin, hmem, hbyte, hmok, hHS⟩ :=
    segmentForAddress_spec st a hwf ha
  refine ⟨st', ?_, hwf2, hmin, hmem, hmok⟩
  have hrd : readByte st a = some (s.byteAt (a : Int), st') := by
    unfold readByte
    rw [heq]
    rfl
  rw [hrd, hbyte]

/-! ## `writeByte` -/

theorem Segment.writeAt_lo (s : Segment) (a : Int) (v : Nat) :
    (s.writeAt a v).lo = s.lo := rfl

theorem Segment.writeAt_length (s : Segment) (a : Int) (v : Nat) :
    (s.writeAt a v).data.length = s.data.length := by
  unfold Segment.writeAt
  exact List.length_set _ _ _

theorem Segment.writeAt_hi (s : Segment) (a : Int) (v : Nat) :
    (s.writeAt a v).hi = s.hi := by
  have h1 := (s.writeAt a v).length_eq
  rw [Segment.writeAt_length, Segment.writeAt_lo] at h1
  have h2 := s.length_eq
  omega

theorem Segment.writeAt_ne_nil {s : Segment} (a : Int) (v : Nat) (h : s.data ≠ []) :
    (s.writeAt a v).data ≠ [] := by
  intro hn
  apply h
  have := s.writeAt_length a v
  rw [hn] at this
  exact List.length_eq_zero.mp this.symm

theorem Segment.byteAt_writeAt_self {s : Segment} {a : Int} (v : Nat) (hc : s.covers a) :
    (s.writeAt a v).byteAt a = v % 256 := by
  obtain ⟨h1, h2⟩ := hc
  have hlen := s.length_eq
  unfold Segment.writeAt Segment.byteAt
  show (s.data.set (a - s.lo).toNat (v % 256)).getD (a - s.lo).toNat 0 = v % 256
  exact getD_set_self _ _ _ (by omega) _

theorem Segment.byteAt_writeAt_ne {s : Segment} {a b : Int} (v : Nat) (hc : s.covers a)
    (hb : s.lo ≤ b) (hne : b ≠ a) : (s.writeAt a v).byteAt b = s.byteAt b := by
  obtain ⟨h1, h2⟩ := hc
  unfold Segment.writeAt Segment.byteAt
  show (s.data.set (a - s.lo).toNat (v % 256)).getD (b - s.lo).toNat 0 =
    s.data.getD (b - s.lo).toNat 0
  exact getD_set_ne _ _ _ _ (by omega) _

theorem WFsegs_map_replace {l : List Segment} {s s' : Segment} (hwf : WFsegs l)
    (hlo : s'.lo = s.lo) (hhi : s'.hi = s.hi) (hne : s'.data ≠ []) :
    WFsegs (l.map (fun t => if t = s then s' else t)) := by
  have hf : ∀ t : Segment, (if t = s then s' else t).lo = t.lo ∧
      (if t = s then s' else t).hi = t.hi := by
    intro t
    by_cases hts : t = s
    · rw [if_pos hts, hts, hlo, hhi]
      exact ⟨rfl, rfl⟩
    · rw [if_neg hts]
      exact ⟨rfl, rfl⟩
  constructor
  · intro x hx
    obtain ⟨t, htl, hteq⟩ := List.mem_map.mp hx
    obtain ⟨htne, hthi⟩ := hwf.1 t htl
    by_cases hts : t = s
    · rw [if_pos hts] at hteq
      subst hteq
      exact ⟨hne, by rw [hhi, ← hts]; exact hthi⟩
    · rw [if_neg hts] at hteq
      subst hteq
      exact ⟨htne, hthi⟩
  · rw [List.pairwise_map]
    refine hwf.2.imp ?_
    intro t1 t2 hsep
    obtain ⟨hl1, hh1⟩ := hf t1
    obtain ⟨hl2, hh2⟩ := hf t2
    unfold separated at *
    rw [hl1, hh1, hl2, hh2]
    exact hsep

theorem memOf_map_replace {l : List Segment} {s s' : Segment} (hwf : WFsegs l)
    (hs : s ∈ l) (hlo : s'.lo = s.lo) (hhi : s'.hi = s.hi) (hne : s'.data ≠ [])
    (b : Int) :
    memOf (l.map (fun t => if t = s then s' else t)) b =
      if s.covers b then s'.byteAt b else memOf l b := by
  have hwf2 := WFsegs_map_replace hwf hlo hhi hne
  by_cases hc : s.covers b
  · rw [if_pos hc]
    have hs'm : s' ∈ l.map (fun t => if t = s then s' else t) := by
      refine List.mem_map.mpr ⟨s, hs, ?_⟩
      rw [if_pos rfl]
    have hc' : s'.covers b := by
      obtain ⟨h1, h2⟩ := hc
      exact ⟨by rw [hlo]; exact h1, by rw [hhi]; exact h2⟩
    exact memOf_eq_byteAt hwf2.2 hs'm hc'
  · rw [if_neg hc]
    by_cases hex : ∃ t, t ∈ l ∧ t.covers b
    · obtain ⟨t, htl, htc⟩ := hex
      have hts : t ≠ s := by
        intro h
        rw [h] at htc
        exact hc htc
      have htm : t ∈ l.map (fun t => if t = s then s' else t) := by
        refine List.mem_map.mpr ⟨t, htl, ?_⟩
        rw [if_neg hts]
      rw [memOf_eq_byteAt hwf2.2 htm htc, memOf_eq_byteAt hwf.2 htl htc]
    · push_neg at hex
      rw [memOf_eq_zero hex]
      refine memOf_eq_zero ?_
      intro x hx hxc
      obtain ⟨t, htl, hteq⟩ := List.mem_map.mp hx
      by_cases hts : t = s
      · rw [if_pos hts] at hteq
        subst hteq
        apply hc
        obtain ⟨h1, h2⟩ := hxc
        exact ⟨by rw [← hlo]; exact h1, by rw [← hhi]; exact h2⟩
      · rw [if_neg hts] at hteq
        subst hteq
        exact hex t htl hxc

/-- `writeByte` succeeds under the invariant, sets the observable byte at the
written address, preserves the invariant, and (when the MRU slot is healthy)
updates the live byte map at exactly the written address. -/
theorem writeByte_spec (st : Store) (a : Nat) (v : Nat) (hwf : WFStore st)
    (ha : (a : Int) ≤ maxAddr) :
    ∃ st', writeByte st a v = some st' ∧ WFStore st' ∧
      st'.minSegSize = st.minSegSize ∧
      absMem st' (a : Int) = v % 256 ∧
      (MRUOk st → MRUOk st' ∧
        ∀ b : Int, memOf st'.live b = if b = (a : Int) then v % 256 else memOf st.live b) := by
  obtain ⟨s, st1, heq, hcov, hwf1, hmin1, hmem1, hbyte, hmok1, hHS⟩ :=
    segmentForAddress_spec st a hwf ha
  set s' := s.writeAt (a : Int) v with hs'def
  have hlo : s'.lo = s.lo := s.writeAt_lo _ _
  have hhi : s'.hi = s.hi := s.writeAt_hi _ _
  set stw : Store :=
    { live := st1.live.map (fun t => if t = s then s' else t),
      mru := st1.mru.map (fun m => if m = s then s' else m),
      minSegSize := st1.minSegSize } with hstw
  have hwrite : writeByte st a v = some stw := by
    unfold writeByte
    rw [heq]
    rfl
  rcases hHS with ⟨hmem, hmruP⟩ | ⟨hnil, hmruS⟩
  · -- the resolved segment is live
    obtain ⟨hsne, hshi⟩ := hwf1.1.1 s hmem
    have hne' : s'.data ≠ [] := s.writeAt_ne_nil _ _ hsne
    have hc' : s'.covers (a : Int) := by
      obtain ⟨h1, h2⟩ := hcov
      exact ⟨by rw [hlo]; exact h1, by rw [hhi]; exact h2⟩
    have hwfl2 : WFsegs stw.live := WFsegs_map_replace hwf1.1 hlo hhi hne'
    have hmemw : ∀ b : Int, memOf stw.live b =
        if s.covers b then s'.byteAt b else memOf st1.live b :=
      fun b => memOf_map_replace hwf1.1 hmem hlo hhi hne' b
    have hnnil : st1.live ≠ [] := by
      intro h
      rw [h] at hmem
      cases hmem
    have hwfw : WFStore stw := by
      refine ⟨hwfl2, ?_, ?_, ?_⟩
      · intro m2 hm2
        cases hm1 : st1.mru with
        | none =>
          rw [hstw] at hm2
          simp only [hm1, Option.map_none'] at hm2
          cases hm2
        | some m =>
          have : stw.mru = some (if m = s then s' else m) := by
            rw [hstw]
            simp only [hm1, Option.map_some']
          rw [this] at hm2
          cases hm2
          rcases hwf1.2.1 m hm1 with h1 | ⟨h1, _⟩
          · left
            refine List.mem_map.mpr ⟨m, h1, rfl⟩
          · exact absurd h1 hnnil
      · show st1.minSegSize % 2 = 1
        exact hwf1.2.2.1
      · show 3 ≤ st1.minSegSize
        exact hwf1.2.2.2
    have habsw : absMem stw (a : Int) = v % 256 := by
      cases hm1 : st1.mru with
      | none =>
        have hmw : stw.mru = none := by
          rw [hstw]
          simp only [hm1, Option.map_none']
        rw [absMem_mru_none hmw, hmemw, if_pos hcov]
        exact Segment.byteAt_writeAt_self v hcov
      | some m =>
        have hmw : stw.mru = some (if m = s then s' else m) := by
          rw [hstw]
          simp only [hm1, Option.map_some']
        rcases hmruP m hm1 with hms | hmnc
        · rw [hms] at hmw
          rw [if_pos rfl] at hmw
          rw [absMem_mru_covers hmw hc']
          exact Segment.byteAt_writeAt_self v hcov
        · have hmns : m ≠ s := by
            intro h
            rw [h] at hmnc
            exact hmnc hcov
          rw [if_neg hmns] at hmw
          rw [absMem_mru_not hmw hmnc, hmemw, if_pos hcov]
          exact Segment.byteAt_writeAt_self v hcov
    refine ⟨stw, hwrite, hwfw, by rw [hstw]; exact hmin1, habsw, ?_⟩
    intro hok
    have hok1 := hmok1 hok
    constructor
    · intro m2 hm2
      cases hm1 : st1.mru with
      | none =>
        rw [hstw] at hm2
        simp only [hm1, Option.map_none'] at hm2
        cases hm2
      | some m =>
        have : stw.mru = some (if m = s then s' else m) := by
          rw [hstw]
          simp only [hm1, Option.map_some']
        rw [this] at hm2
        cases hm2
        exact List.mem_map.mpr ⟨m, hok1 m hm1, rfl⟩
    · intro b
      rw [hmemw]
      by_cases hba : b = (a : Int)
      · rw [if_pos hba, hba, if_pos hcov]
        exact Segment.byteAt_writeAt_self v hcov
      · rw [if_neg hba]
        by_cases hcb : s.covers b
        · rw [if_pos hcb]
          rw [Segment.byteAt_writeAt_ne v hcov hcb.1 hba, ← hmem1 b]
          exact (memOf_eq_byteAt hwf1.1.2 hmem hcb).symm
        · rw [if_neg hcb]
          exact hmem1 b
  · -- the resolved segment is a stale MRU segment over an empty live index
    have hsprops := hwf1.2.1 s hmruS
    have hsne : s.data ≠ [] := by
      rcases hsprops with h1 | ⟨_, h2, _⟩
      · rw [hnil] at h1
        cases h1
      · exact h2
    have hshi : s.hi ≤ maxAddr := by
      rcases hsprops with h1 | ⟨_, _, h3⟩
      · rw [hnil] at h1
        cases h1
      · exact h3
    have hne' : s'.data ≠ [] := s.writeAt_ne_nil _ _ hsne
    have hc' : s'.covers (a : Int) := by
      obtain ⟨h1, h2⟩ := hcov
      exact ⟨by rw [hlo]; exact h1, by rw [hhi]; exact h2⟩
    have hlive : stw.live = [] := by
      rw [hstw]
      show st1.live.map _ = []
      rw [hnil]
      rfl
    have hmw : stw.mru = some s' := by
      rw [hstw]
      show st1.mru.map _ = _
      rw [hmruS]
      show some (if s = s then s' else s) = some s'
      rw [if_pos rfl]
    have hwfw : WFStore stw := by
      refine ⟨?_, ?_, ?_, ?_⟩
      · rw [hlive]
        exact ⟨fun x hx => absurd hx (by simp), List.Pairwise.nil⟩
      · intro m2 hm2
        rw [hmw] at hm2
        cases hm2
        exact Or.inr ⟨hlive, hne', by rw [hhi]; exact hshi⟩
      · show st1.minSegSize % 2 = 1
        exact hwf1.2.2.1
      · show 3 ≤ st1.minSegSize
        exact hwf1.2.2.2
    refine ⟨stw, hwrite, hwfw, by rw [hstw]; exact hmin1, ?_, ?_⟩
    · rw [absMem_mru_covers hmw hc']
      exact Segment.byteAt_writeAt_self v hcov
    · intro hok
      have := hmok1 hok s hmruS
      rw [hnil] at this
      cases this

/-! ## System-level invariant preservation -/

theorem memOf_append_not_covered {l1 : List Segment} {t : Segment} {a : Int}
    (h : ¬ t.covers a) : memOf (l1 ++ [t]) a = memOf l1 a := by
  unfold memOf
  rw [List.find?_append]
  cases hf : l1.find? (fun t => decide (t.covers a)) with
  | some u => rfl
  | none =>
    have ht : List.find? (fun t => decide (t.covers a)) [t] = none := by
      rw [List.find?_eq_none]
      intro x hx
      rcases List.mem_singleton.mp hx with rfl
      simpa using h
    rw [ht]
    rfl

theorem WFStore_fresh : WFStore freshStore := by
  refine ⟨⟨fun s hs => absurd hs (by simp [freshStore]), ?_⟩, ?_, by decide, by decide⟩
  · show List.Pairwise separated []
    exact List.Pairwise.nil
  · intro m hm
    cases hm

theorem foldl_insert_WFStore :
    ∀ (l : List Segment) (base : Store), WFStore base → (∀ t ∈ l, t.hi ≤ maxAddr) →
      WFStore (l.foldl insertSegment base) ∧
      (l.foldl insertSegment base).minSegSize = base.minSegSize := by
  intro l
  induction l with
  | nil => exact fun base hb _ => ⟨hb, rfl⟩
  | cons t rest ih =>
    intro base hb hhi
    rw [List.foldl_cons]
    by_cases hne : t.data = []
    · rw [insertSegment_nil hne]
      exact ih base hb (fun x hx => hhi x (List.mem_cons_of_mem _ hx))
    · obtain ⟨hwf2, hmin2, _, _⟩ :=
        insertSegment_store_spec hb hne (hhi t (List.mem_cons_self _ _))
      obtain ⟨h1, h2⟩ := ih (insertSegment base t) hwf2
        (fun x hx => hhi x (List.mem_cons_of_mem _ hx))
      exact ⟨h1, by rw [h2, hmin2]⟩

/-- Emptying the live index (as `clear`/`reset` do) keeps the store
well-formed: a surviving MRU entry becomes a well-shaped stale entry. -/
theorem WFStore_empty_live {st : Store} (hwf : WFStore st) :
    WFStore { st with live := [] } := by
  refine ⟨⟨fun s hs => absurd hs (by simp), List.Pairwise.nil⟩, ?_, hwf.2.2.1, hwf.2.2.2⟩
  intro m hm
  right
  refine ⟨rfl, ?_⟩
  rcases hwf.2.1 m hm with h1 | ⟨_, h2, h3⟩
  · exact hwf.1.1 m h1
  · exact ⟨h2, h3⟩

theorem reset_WFS {st : SpAS} (hwf : WFS st) : WFS (reset st) := by
  obtain ⟨hws, hwo⟩ := hwf
  have hbase : WFStore { st.store with live := [] } := WFStore_empty_live hws
  constructor
  · show WFStore (match st.initData with
      | some ov => ov.live.foldl insertSegment { st.store with live := [] }
      | none => { st.store with live := [] })
    cases hd : st.initData with
    | none => exact hbase
    | some ov =>
      exact (foldl_insert_WFStore ov.live _ hbase
        (fun t ht => ((hwo ov hd).1.1 t ht).2)).1
  · intro ov hov
    show WFStore ov
    have : st.initData = some ov := hov
    exact hwo ov this

theorem writeBytesLE_WFStore :
    ∀ (n : Nat) (st : Store) (a : Nat) (v : Nat), WFStore st → a < 4294967296 →
      ∃ st', writeBytesLE st a v n = some st' ∧ WFStore st' ∧
        st'.minSegSize = st.minSegSize := by
  intro n
  induction n with
  | zero => exact fun st a v hwf _ => ⟨st, rfl, hwf, rfl⟩
  | succ n ih =>
    intro st a v hwf ha
    have ha' : (a : Int) ≤ maxAddr := by
      unfold maxAddr
      omega
    obtain ⟨st1, hw, hwf1, hmin1, _, _⟩ := writeByte_spec st a v hwf ha'
    obtain ⟨st2, hw2, hwf2, hmin2⟩ := ih st1 (addrSucc a) (v / 256) hwf1
      (Nat.mod_lt _ (by omega))
    refine ⟨st2, ?_, hwf2, by rw [hmin2, hmin1]⟩
    show (writeByte st a v).bind _ = some st2
    rw [hw]
    exact hw2

theorem stepOp_WFS {st st' : SpAS} {op : Op} (hwf : WFS st) (hval : ValidOp op)
    (h : stepOp st op = some st') : WFS st' := by
  obtain ⟨hws, hwo⟩ := hwf
  cases op with
  | ins s bytes =>
    cases h
    constructor
    · show WFStore (insertSegment st.store ⟨s, bytes⟩)
      by_cases hne : bytes = []
      · rw [insertSegment_nil hne]
        exact hws
      · have hv2 : (⟨s, bytes⟩ : Segment).hi ≤ maxAddr := hval
        exact (insertSegment_store_spec hws hne hv2).1
    · exact hwo
  | wb a v =>
    have ha : (a : Int) ≤ maxAddr := hval
    obtain ⟨st1, hw, hwf1, hd1, hd2, hd3⟩ := writeByte_spec st.store a v hws ha
    simp only [stepOp, hw] at h
    cases h
    exact ⟨hwf1, hwo⟩
  | wv a v sz n =>
    by_cases hgt : n > sz
    · have hwv : writeValue st.store a v sz n =
          Except.error "Trying to write more bytes than what is contained in @p value" := by
        unfold writeValue
        rw [if_pos hgt]
      simp only [stepOp, hwv] at h
      cases h
      exact ⟨hws, hwo⟩
    · have ha : a < 4294967296 := by
        have hval2 : (a : Int) ≤ maxAddr := hval
        unfold maxAddr at hval2
        omega
      obtain ⟨st1, hw, hwf1, hd1⟩ := writeBytesLE_WFStore n st.store a v hws ha
      have hwv : writeValue st.store a v sz n = Except.ok (some st1) := by
        unfold writeValue
        rw [if_neg hgt, hw]
      simp only [stepOp, hwv] at h
      cases h
      exact ⟨hwf1, hwo⟩
  | rb a =>
    have ha : (a : Int) ≤ maxAddr := hval
    obtain ⟨st1, hr, hwf1, hd1, hd2, hd3⟩ := readByte_spec st.store a hws ha
    simp only [stepOp, hr] at h
    cases h
    exact ⟨hwf1, hwo⟩
  | rst =>
    cases h
    exact reset_WFS ⟨hws, hwo⟩

theorem runOps_WFS {st : SpAS} (hwf : WFS st) :
    ∀ (ops : List Op) (st' : SpAS), (∀ op ∈ ops, ValidOp op) →
      runOps st ops = some st' → WFS st' := by
  intro ops
  induction ops generalizing st with
  | nil =>
    intro st' _ h
    cases h
    exact hwf
  | cons op rest ih =>
    intro st' hval h
    unfold runOps at h
    cases hstep : stepOp st op with
    | none =>
      rw [hstep] at h
      cases h
    | some st1 =>
      rw [hstep] at h
      exact ih (stepOp_WFS hwf (hval op (List.mem_cons_self _ _)) hstep)
        st' (fun o ho => hval o (List.mem_cons_of_mem _ ho)) h

/-! ## `reset` reproduces the overlay byte map -/

theorem foldl_insert_memOf_aux :
    ∀ (rest done : List Segment) (base : Store),
      (done ++ rest).Pairwise separated →
      (∀ t ∈ done ++ rest, t.data ≠ [] ∧ t.hi ≤ maxAddr) →
      WFStore base → (∀ a : Int, memOf base.live a = memOf done a) →
      WFStore (rest.foldl insertSegment base) ∧
      ∀ a : Int, memOf (rest.foldl insertSegment base).live a = memOf (done ++ rest) a := by
  intro rest
  induction rest with
  | nil =>
    intro done base hpair hall hwf hmem
    rw [List.foldl_nil]
    refine ⟨hwf, ?_⟩
    intro a
    rw [List.append_nil]
    exact hmem a
  | cons t rest2 ih =>
    intro done base hpair hall hwf hmem
    rw [List.foldl_cons]
    obtain ⟨htne, hthi⟩ := hall t (List.mem_append_right _ (List.mem_cons_self _ _))
    obtain ⟨hwf2, hmin2, hok2, hmem2⟩ := insertSegment_store_spec hwf htne hthi
    have hsept : ∀ k ∈ done, separated k t := by
      intro k hk
      have := (List.pairwise_append.mp hpair).2.2 k hk t (List.mem_cons_self _ _)
      exact this
    have hassoc : done ++ t :: rest2 = (done ++ [t]) ++ rest2 := by
      simp
    have hmem3 : ∀ a : Int, memOf (insertSegment base t).live a = memOf (done ++ [t]) a := by
      intro a
      rw [hmem2 a]
      by_cases hc : t.covers a
      · rw [if_pos hc]
        have hdone : ∀ k ∈ done, ¬ k.covers a := by
          intro k hk hkc
          obtain ⟨h1, h2⟩ := hkc
          obtain ⟨h3, h4⟩ := hc
          rcases hsept k hk with h | h <;> omega
        rw [memOf_append_right hdone, memOf_singleton_of_covers hc]
      · rw [if_neg hc, memOf_append_not_covered hc]
        exact hmem a
    rw [hassoc] at hpair hall ⊢
    exact ih (done ++ [t]) (insertSegment base t) hpair hall hwf2 hmem3

/-- Operations that only touch live memory leave the overlay untouched. -/
theorem runOps_initData {ops : List Op} (hops : ∀ op ∈ ops, LiveOp op) :
    ∀ (st st' : SpAS), runOps st ops = some st' → st'.initData = st.initData := by
  induction ops with
  | nil =>
    intro st st' h
    cases h
    rfl
  | cons op rest ih =>
    intro st st' h
    have hop := hops op (List.mem_cons_self _ _)
    have hrest : ∀ o ∈ rest, LiveOp o := fun o ho => hops o (List.mem_cons_of_mem _ ho)
    unfold runOps at h
    cases hstep : stepOp st op with
    | none =>
      rw [hstep] at h
      cases h
    | some st1 =>
      rw [hstep] at h
      have h1 : st1.initData = st.initData := by
        cases op with
        | ins s bytes =>
          cases hstep
          rfl
        | wb a v =>
          simp only [stepOp] at hstep
          cases hw : writeByte st.store a v with
          | none =>
            rw [hw] at hstep
            cases hstep
          | some s2 =>
            rw [hw] at hstep
            cases hstep
            rfl
        | wv a v sz n =>
          simp only [stepOp] at hstep
          cases hw : writeValue st.store a v sz n with
          | error e =>
            rw [hw] at hstep
            cases hstep
            rfl
          | ok o =>
            rw [hw] at hstep
            cases o with
            | none => cases hstep
            | some s2 =>
              cases hstep
              rfl
        | rb a =>
          simp only [stepOp] at hstep
          cases hr : readByte st.store a with
          | none =>
            rw [hr] at hstep
            cases hstep
          | some p =>
            rw [hr] at hstep
            cases hstep
            rfl
        | rst => exact absurd hop (by simp [LiveOp])
      rw [ih hrest st1 st' h, h1]

/-! ## Little-endian multi-byte writes and reads -/

theorem writeBytesLE_memOf :
    ∀ (n : Nat) (st : Store) (a : Nat) (x : Nat), WFStore st → MRUOk st →
      a < 4294967296 → n ≤ 8 →
      ∃ st1, writeBytesLE st a x n = some st1 ∧ WFStore st1 ∧ MRUOk st1 ∧
        (∀ i, i < n →
          memOf st1.live (((a + i) % 4294967296 : Nat) : Int) = (x / 256 ^ i) % 256) ∧
        (∀ b : Int, (∀ i, i < n → b ≠ (((a + i) % 4294967296 : Nat) : Int)) →
          memOf st1.live b = memOf st.live b) := by
  intro n
  induction n with
  | zero =>
    intro st a x hwf hok ha hn
    exact ⟨st, rfl, hwf, hok, fun i hi => absurd hi (by omega), fun b _ => rfl⟩
  | succ n ih =>
    intro st a x hwf hok ha hn
    have ha' : (a : Int) ≤ maxAddr := by
      unfold maxAddr
      omega
    obtain ⟨stA, hw, hwfA, hminA, habsA, hmA⟩ := writeByte_spec st a x hwf ha'
    obtain ⟨hokA, hupd⟩ := hmA hok
    obtain ⟨st1, hwrest, hwf1, hok1, hi1, hii1⟩ :=
      ih stA (addrSucc a) (x / 256) hwfA hokA (Nat.mod_lt _ (by omega)) (by omega)
    have hrun : writeBytesLE st a x (n + 1) = some st1 := by
      show (writeByte st a x).bind _ = some st1
      rw [hw]
      exact hwrest
    have haddr : ∀ j : Nat, (addrSucc a + j) % 4294967296 = (a + (j + 1)) % 4294967296 := by
      intro j
      unfold addrSucc
      omega
    refine ⟨st1, hrun, hwf1, hok1, ?_, ?_⟩
    · intro i hi
      cases i with
      | zero =>
        have haa : (a + 0) % 4294967296 = a := by omega
        rw [haa]
        have hne : ∀ j, j < n → (a : Int) ≠ (((addrSucc a + j) % 4294967296 : Nat) : Int) := by
          intro j hj hcon
          have : a = (addrSucc a + j) % 4294967296 := by exact_mod_cast hcon
          unfold addrSucc at this
          omega
        rw [hii1 (a : Int) hne, hupd (a : Int), if_pos rfl]
        simp
      | succ j =>
        have hj : j < n := by omega
        have := hi1 j hj
        rw [haddr j] at this
        rw [this]
        have hdiv : x / 256 / 256 ^ j = x / 256 ^ (j + 1) := by
          rw [Nat.div_div_eq_div_mul, ← pow_succ']
        rw [hdiv]
    · intro b hb
      have hb1 : ∀ j, j < n → b ≠ (((addrSucc a + j) % 4294967296 : Nat) : Int) := by
        intro j hj
        rw [haddr j]
        exact hb (j + 1) (by omega)
      have hba : b ≠ (a : Int) := by
        have := hb 0 (by omega)
        have haa : (a + 0) % 4294967296 = a := by omega
        rw [haa] at this
        exact this
      rw [hii1 b hb1, hupd b, if_neg hba]

theorem readSum_congr {l1 l2 : List Segment}
    (h : ∀ b : Int, memOf l1 b = memOf l2 b) :
    ∀ (n : Nat) (a : Nat), readSum l1 a n = readSum l2 a n := by
  intro n
  induction n with
  | zero => intro a; rfl
  | succ n ih =>
    intro a
    unfold readSum
    rw [h, ih]

theorem readSum_eq :
    ∀ (k : Nat) (l : List Segment) (a : Nat) (y : Nat),
      (∀ i, i < k → memOf l (((a + i) % 4294967296 : Nat) : Int) = (y / 256 ^ i) % 256) →
      a < 4294967296 →
      readSum l a k = y % 256 ^ k := by
  intro k
  induction k with
  | zero =>
    intro l a y hv ha
    show 0 = y % 1
    omega
  | succ k ih =>
    intro l a y hv ha
    unfold readSum
    have h0 : memOf l (a : Int) = y % 256 := by
      have := hv 0 (by omega)
      have haa : (a + 0) % 4294967296 = a := by omega
      rw [haa] at this
      simpa using this
    have hrest : readSum l (addrSucc a) k = (y / 256) % 256 ^ k := by
      refine ih l (addrSucc a) (y / 256) ?_ (Nat.mod_lt _ (by omega))
      intro i hi
      have haddr : (addrSucc a + i) % 4294967296 = (a + (i + 1)) % 4294967296 := by
        unfold addrSucc
        omega
      rw [haddr]
      have := hv (i + 1) (by omega)
      rw [this]
      rw [Nat.div_div_eq_div_mul, ← pow_succ']
    rw [h0, hrest]
    rw [pow_succ', Nat.mod_mul]

theorem readBytesLE_spec :
    ∀ (n : Nat) (st : Store) (a : Nat), WFStore st → MRUOk st → a < 4294967296 →
      ∃ st2, readBytesLE st a n = some (readSum st.live a n, st2) ∧ WFStore st2 ∧
        MRUOk st2 ∧ (∀ b : Int, memOf st2.live b = memOf st.live b) := by
  intro n
  induction n with
  | zero =>
    intro st a hwf hok ha
    exact ⟨st, rfl, hwf, hok, fun b => rfl⟩
  | succ n ih =>
    intro st a hwf hok ha
    have ha' : (a : Int) ≤ maxAddr := by
      unfold maxAddr
      omega
    obtain ⟨stA, hrd, hwfA, hminA, hmemA, hmokA⟩ := readByte_spec st a hwf ha'
    have hokA := hmokA hok
    obtain ⟨st2, hrec, hwf2, hok2, hmem2⟩ :=
      ih stA (addrSucc a) hwfA hokA (Nat.mod_lt _ (by omega))
    have habs : absMem st (a : Int) = memOf st.live (a : Int) :=
      absMem_eq_memOf hwf.1 hok (a : Int)
    have hsum : readSum stA.live (addrSucc a) n = readSum st.live (addrSucc a) n :=
      readSum_congr hmemA n (addrSucc a)
    refine ⟨st2, ?_, hwf2, hok2, fun b => by rw [hmem2 b, hmemA b]⟩
    show (readByte st a).bind _ = _
    rw [hrd]
    show (readBytesLE stA (addrSucc a) n).map _ = _
    rw [hrec]
    show some (absMem st (a : Int) + 256 * readSum stA.live (addrSucc a) n, st2) = _
    rw [habs, hsum]
    rfl

/-- `readValue` of a width with defined behavior (`n ≤ 4`) returns the
little-endian sum of the live byte map. -/
theorem readValueLE_spec (n : Nat) (st : Store) (a : Nat) (hn : n ≤ 4)
    (hwf : WFStore st) (hok : MRUOk st) (ha : a < 4294967296) :
    ∃ st2, readValueLE st a n = some (readSum st.live a n, st2) ∧ WFStore st2 ∧
      MRUOk st2 ∧ (∀ b : Int, memOf st2.live b = memOf st.live b) := by
  obtain ⟨st2, h, hwf2, hok2, hmem2⟩ := readBytesLE_spec n st a hwf hok ha
  refine ⟨st2, ?_, hwf2, hok2, hmem2⟩
  unfold readValueLE
  rw [if_pos hn]
  exact h

/-- Little-endian multi-byte round trip over a store with a healthy MRU
slot: writing `W ≤ 4` bytes of `x` and reading `W` bytes back yields `x`
(wider reads have no defined result in the source). -/
theorem writeBytesLE_readValueLE (st : Store) (a x W : Nat) (hwf : WFStore st)
    (hok : MRUOk st) (ha : a < 4294967296) (hW : W ≤ 4) (hx : x < 256 ^ W) :
    ∃ st1 st2, writeBytesLE st a x W = some st1 ∧ readValueLE st1 a W = some (x, st2) := by
  obtain ⟨st1, hw, hwf1, hok1, hi1, hii1⟩ := writeBytesLE_memOf W st a x hwf hok ha
    (by omega)
  obtain ⟨st2, hr, hd1, hd2, hd3⟩ := readValueLE_spec W st1 a hW hwf1 hok1 ha
  have hsum : readSum st1.live a W = x := by
    rw [readSum_eq W st1.live a x hi1 ha]
    exact Nat.mod_eq_of_lt hx
  rw [hsum] at hr
  exact ⟨st1, st2, hw, hr⟩

/-! ## Claim theorems -/

/-- C1: for every non-empty segment `newSeg` (within the address space) and
every well-formed live-store state, after `insertSegment(newSeg)` the store
contains no address-range overlaps; every address covered by both an old
segment and `newSeg` holds `newSeg`'s byte value; any previously-separate
segment adjacent to `newSeg`'s range is removed from the keep-set and merged
into the coalesced inserted segment (which also spans `newSeg`'s range, so it
is adjacent to the final range exactly when it is adjacent to `newSeg`); no
kept segment overlaps or abuts the final segment; every segment entirely
covered by `newSeg` is removed; and inserting a zero-length segment leaves
the store unchanged. -/
theorem claim_C1_insertSegment_contract (st : Store) (seg : Segment)
    (hwf : WFsegs st.live) (hne : seg.data ≠ []) (hhi : seg.hi ≤ maxAddr) :
    (insertSegment st seg).live.Pairwise separated ∧
    (∀ a : Int, (∃ t ∈ st.live, t.covers a) → seg.covers a →
      memOf (insertSegment st seg).live a = seg.byteAt a) ∧
    (∀ t ∈ st.live,
      (t.hi + 1 = seg.lo ∨ t.lo = seg.hi + 1) →
      t ∉ keptSegs st.live seg ∧
      insertedSeg st.live seg ∈ (insertSegment st seg).live ∧
      (insertedSeg st.live seg).lo ≤ t.lo ∧ t.hi ≤ (insertedSeg st.live seg).hi ∧
      (insertedSeg st.live seg).lo ≤ seg.lo ∧ seg.hi ≤ (insertedSeg st.live seg).hi) ∧
    (∀ k ∈ keptSegs st.live seg, separated k (insertedSeg st.live seg)) ∧
    (∀ t ∈ st.live, seg.lo ≤ t.lo → t.hi ≤ seg.hi → t ∉ keptSegs st.live seg) ∧
    (insertSegment st seg).live = keptSegs st.live seg ++ [insertedSeg st.live seg] ∧
    (∀ (st0 : Store) (s0 : Segment), s0.data = [] → insertSegment st0 s0 = st0) := by
  have hlen : seg.data.length ≠ 0 := fun h => hne (List.length_eq_zero.mp h)
  have hlive : (insertSegment st seg).live =
      keptSegs st.live seg ++ [insertedSeg st.live seg] := by
    unfold insertSegment
    rw [if_neg hlen]
  have hwfnew := insertLive_WF hwf hne hhi
  obtain ⟨⟨hune, hulo, huhi, humax, hbseg, hbold, hcovr, hulo2, huhi2⟩, hbnd⟩ :=
    insertedSeg_spec hwf hne hhi
  have humem : insertedSeg st.live seg ∈ (insertSegment st seg).live := by
    rw [hlive]
    exact List.mem_append_right _ (List.mem_singleton.mpr rfl)
  have hsll := seg.lo_le_hi hne
  refine ⟨?_, ?_, ?_, kept_separated_inserted hwf hne hhi, ?_, hlive, ?_⟩
  · rw [hlive]
    exact hwfnew.2
  · intro a hex hcov
    rw [hlive, insertLive_memOf hwf hne hhi a, if_pos hcov]
  · intro t ht hadj
    obtain ⟨htne, hthi⟩ := hwf.1 t ht
    have htll := t.lo_le_hi htne
    have hov : overlapsPt t seg.lo ∨ overlapsPt t (seg.hi + 1) := by
      rcases t.stopI_cases hthi with ⟨he, hb⟩ | ⟨he, hb⟩ <;>
        rcases hadj with h | h
      · left
        rw [overlapsPt, he]
        constructor <;> omega
      · right
        rw [overlapsPt, he]
        constructor <;> omega
      · left
        rw [overlapsPt, he]
        constructor <;> omega
      · right
        rw [overlapsPt, he]
        constructor <;> omega
    have hb2 := hbnd t (edge_mem ht hov)
    refine ⟨?_, humem, hb2.1, hb2.2, hulo, huhi⟩
    intro hk
    exact (kept_mem.mp hk).2 (Or.inr hov)
  · intro t ht hlo3 hhi3
    intro hk
    obtain ⟨_, hknc⟩ := kept_mem.mp hk
    obtain ⟨htne, hthi⟩ := hwf.1 t ht
    have htll := t.lo_le_hi htne
    apply hknc
    rcases t.stopI_cases hthi with ⟨he, hb⟩ | ⟨he, hb⟩
    · by_cases hteq : t.hi = seg.hi
      · right
        right
        rw [overlapsPt, he]
        constructor <;> omega
      · left
        rw [containedIn, he]
        constructor <;> omega
    · left
      rw [containedIn, he]
      constructor <;> omega
  · intro st0 s0 h0
    exact insertSegment_nil h0

/-- C1 witness. -/
theorem claim_C1_insertSegment_contract_witness :
    WFsegs ({ live := [⟨100, [1, 1]⟩], mru := none, minSegSize := 5 } : Store).live ∧
    (⟨101, [2, 2]⟩ : Segment).data ≠ [] ∧ (⟨101, [2, 2]⟩ : Segment).hi ≤ maxAddr ∧
    (insertSegment { live := [⟨100, [1, 1]⟩], mru := none, minSegSize := 5 }
        ⟨101, [2, 2]⟩).live.Pairwise separated :=
  ⟨by decide, by decide, by decide,
    (claim_C1_insertSegment_contract
      { live := [⟨100, [1, 1]⟩], mru := none, minSegSize := 5 } ⟨101, [2, 2]⟩
      (by decide) (by decide) (by decide)).1⟩

/-- C2: starting from any well-formed state, after any sequence of
`insertSegment`, `writeByte`, `writeValue`, `readByte` and `reset`
operations (with in-range addresses and segments), no two live segments
have overlapping inclusive ranges and no two are left adjacent. -/
theorem claim_C2_no_overlap_no_adjacent (st0 : SpAS) (hwf : WFS st0) (ops : List Op)
    (hval : ∀ op ∈ ops, ValidOp op) (st' : SpAS) (h : runOps st0 ops = some st') :
    ∀ t1 ∈ st'.store.live, ∀ t2 ∈ st'.store.live, t1 ≠ t2 →
      (t1.hi < t2.lo ∨ t2.hi < t1.lo) ∧ t1.hi + 1 ≠ t2.lo ∧ t2.hi + 1 ≠ t1.lo := by
  have hwfs := runOps_WFS hwf ops st' hval h
  intro t1 h1 t2 h2 hne
  obtain ⟨h1ne, h1hi⟩ := hwfs.1.1.1 t1 h1
  obtain ⟨h2ne, h2hi⟩ := hwfs.1.1.1 t2 h2
  have l1 := t1.lo_le_hi h1ne
  have l2 := t2.lo_le_hi h2ne
  have hsep := List.Pairwise.forall (fun _ _ h => separated_symm h) hwfs.1.1.2 h1 h2 hne
  rcases hsep with hs | hs
  · exact ⟨Or.inl (by omega), by omega, by omega⟩
  · exact ⟨Or.inr (by omega), by omega, by omega⟩

/-- C2 witness. -/
theorem claim_C2_no_overlap_no_adjacent_witness :
    WFS ⟨freshStore, none⟩ ∧
    (∀ op ∈ [Op.wb 10 1, Op.ins 12 [5, 5], Op.rst, Op.wb 3 9], ValidOp op) ∧
    ∃ st', runOps ⟨freshStore, none⟩ [Op.wb 10 1, Op.ins 12 [5, 5], Op.rst, Op.wb 3 9] =
        some st' ∧
      ∀ t1 ∈ st'.store.live, ∀ t2 ∈ st'.store.live, t1 ≠ t2 →
        (t1.hi < t2.lo ∨ t2.hi < t1.lo) ∧ t1.hi + 1 ≠ t2.lo ∧ t2.hi + 1 ≠ t1.lo := by
  refine ⟨by decide, by decide, ?_⟩
  cases hrun : runOps ⟨freshStore, none⟩ [Op.wb 10 1, Op.ins 12 [5, 5], Op.rst, Op.wb 3 9] with
  | none => exact absurd hrun (by decide)
  | some st' =>
    exact ⟨st', rfl,
      claim_C2_no_overlap_no_adjacent ⟨freshStore, none⟩ (by decide) _ (by decide) st' hrun⟩

/-- C3: in any state reached by a valid operation sequence from a
well-formed state, `writeByte(a, v)` followed by `readByte(a)` returns
`v`. -/
theorem claim_C3_write_read_roundtrip (st0 : SpAS) (hwf : WFS st0) (ops : List Op)
    (hval : ∀ op ∈ ops, ValidOp op) (st : SpAS) (hrun : runOps st0 ops = some st)
    (a v : Nat) (ha : (a : Int) ≤ maxAddr) (hv : v < 256) :
    ∃ st1 st2, writeByte st.store a v = some st1 ∧ readByte st1 a = some (v, st2) := by
  have hwfs := runOps_WFS hwf ops st hval hrun
  obtain ⟨st1, hw, hwf1, hmin, habs, hmok⟩ := writeByte_spec st.store a v hwfs.1 ha
  obtain ⟨st2, hr, hd1, hd2, hd3, hd4⟩ := readByte_spec st1 a hwf1 ha
  rw [habs, Nat.mod_eq_of_lt hv] at hr
  exact ⟨st1, st2, hw, hr⟩

/-- C3 witness. -/
theorem claim_C3_write_read_roundtrip_witness :
    WFS ⟨freshStore, none⟩ ∧ (5 : Int) ≤ maxAddr ∧ 7 < 256 ∧
    ∃ st1 st2, writeByte (⟨freshStore, none⟩ : SpAS).store 5 7 = some st1 ∧
      readByte st1 5 = some (7, st2) :=
  ⟨by decide, by decide, by decide,
    claim_C3_write_read_roundtrip ⟨freshStore, none⟩ (by decide) [] (by decide)
      ⟨freshStore, none⟩ rfl 5 7 (by decide) (by decide)⟩

/-- C8: under the invariant, `segmentForAddress(addr)` never fails for any
representable address: it returns (creating at most one segment, after which
the single retry of the embedding already succeeds) a segment whose
inclusive range contains the address. -/
theorem claim_C8_segmentForAddress_total (st : Store) (a : Nat) (hwf : WFStore st)
    (ha : (a : Int) ≤ maxAddr) :
    ∃ s st', segmentForAddress st a = some (s, st') ∧ s.covers (a : Int) := by
  obtain ⟨s, st', heq, hcov, hrest⟩ := segmentForAddress_spec st a hwf ha
  exact ⟨s, st', heq, hcov⟩

/-- C8 witness. -/
theorem claim_C8_segmentForAddress_total_witness :
    WFStore freshStore ∧ (4294967295 : Int) ≤ maxAddr ∧
    ∃ s st', segmentForAddress freshStore 4294967295 = some (s, st') ∧
      s.covers (4294967295 : Int) :=
  ⟨by decide, by decide,
    claim_C8_segmentForAddress_total freshStore 4294967295 (by decide) (by decide)⟩

/-- C9: `writeValue` with a byte count exceeding the value type's size
throws (reporting the width error) before writing anything, so the caller
observes a completely unchanged address space. -/
theorem claim_C9_invalid_width_throws (a v sizeofV nbytes : Nat) (h : nbytes > sizeofV) :
    (∀ st : Store, writeValue st a v sizeofV nbytes =
      Except.error "Trying to write more bytes than what is contained in @p value") ∧
    (∀ sp : SpAS, stepOp sp (Op.wv a v sizeofV nbytes) = some sp) := by
  have herr : ∀ st : Store, writeValue st a v sizeofV nbytes =
      Except.error "Trying to write more bytes than what is contained in @p value" := by
    intro st
    unfold writeValue
    rw [if_pos h]
  refine ⟨herr, ?_⟩
  intro sp
  simp only [stepOp, herr sp.store]

/-- C9 witness. -/
theorem claim_C9_invalid_width_throws_witness :
    5 > 4 ∧
    ((∀ st : Store, writeValue st 0 3 4 5 =
      Except.error "Trying to write more bytes than what is contained in @p value") ∧
    (∀ sp : SpAS, stepOp sp (Op.wv 0 3 4 5) = some sp)) :=
  ⟨by decide, claim_C9_invalid_width_throws 0 3 4 5 (by decide)⟩

/-- C10: `clear()` empties the initialization overlay as well as the live
store, so a subsequent `reset()` restores nothing and leaves the live store
empty. -/
theorem claim_C10_clear_empties_overlay (st : SpAS) :
    (clear st).store.live = [] ∧
    (∀ ov, (clear st).initData = some ov → ov.live = []) ∧
    (reset (clear st)).store.live = [] ∧
    (reset (clear st)).initData = (clear st).initData := by
  refine ⟨rfl, ?_, ?_, rfl⟩
  · intro ov hov
    unfold clear at hov
    cases hd : st.initData with
    | none =>
      rw [hd] at hov
      cases hov
    | some ov0 =>
      rw [hd] at hov
      cases hov
      rfl
  · unfold reset clear
    cases hd : st.initData with
    | none => rfl
    | some ov0 => rfl

theorem byteAt_replicate (start n : Nat) (a : Int) :
    Segment.byteAt ⟨start, List.replicate n 0⟩ a = 0 := by
  unfold Segment.byteAt
  by_cases h : (a - Segment.lo ⟨start, List.replicate n 0⟩).toNat < n
  · exact getD_replicate_eq n 0 _ 0 h
  · apply List.getD_eq_default
    rw [List.length_replicate]
    omega

/-- C7: when no live segment covers `addr`, the allocation window of
`createMissingSegment(addr)` contains `addr`, is non-empty and stays inside
the address space; absent underflow, overflow and neighbour truncation it is
exactly the `minSegSize`-wide window centred on `addr`; on underflow it is
shifted up to start at 0 with its width preserved; a lower neighbour
reaching into the window truncates it at the neighbour's stop with the
truncated amount re-added to the upper bound; the upper bound never exceeds
an upper neighbour's start and the lower bound never falls below a lower
neighbour's stop; on overflow the upper bound is clamped to the address-space
ceiling; the window overlaps no existing segment; and the inserted segment is
exactly this window, zero-filled. -/
theorem claim_C7_createMissingSegment_policy (st : Store) (addr : Nat)
    (hwf : WFStore st) (ha : (addr : Int) ≤ maxAddr)
    (hnc : ∀ t ∈ st.live, ¬ t.covers (addr : Int)) :
    ((missingWindow st addr).1 ≤ (addr : Int) ∧ (addr : Int) < (missingWindow st addr).2 ∧
      0 ≤ (missingWindow st addr).1 ∧ (missingWindow st addr).2 ≤ maxAddr + 1) ∧
    (((st.minSegSize / 2 : Nat) : Int) ≤ (addr : Int) →
      (addr : Int) + ((st.minSegSize / 2 : Nat) : Int) ≤ maxAddr →
      (∀ l0, lowerNeighbor st.live (addr : Int) = some l0 →
        l0.stopI < (addr : Int) - ((st.minSegSize / 2 : Nat) : Int)) →
      (∀ u0, upperNeighbor st.live (addr : Int) = some u0 →
        (addr : Int) + ((st.minSegSize / 2 : Nat) : Int) + 1 ≤ u0.lo) →
      (missingWindow st addr).1 = (addr : Int) - ((st.minSegSize / 2 : Nat) : Int) ∧
      (missingWindow st addr).2 = (addr : Int) + ((st.minSegSize / 2 : Nat) : Int) + 1 ∧
      (missingWindow st addr).2 - (missingWindow st addr).1 = (st.minSegSize : Int)) ∧
    ((addr : Int) < ((st.minSegSize / 2 : Nat) : Int) →
      lowerNeighbor st.live (addr : Int) = none →
      (∀ u0, upperNeighbor st.live (addr : Int) = some u0 → (st.minSegSize : Int) ≤ u0.lo) →
      (st.minSegSize : Int) ≤ maxAddr + 1 →
      (missingWindow st addr).1 = 0 ∧
      (missingWindow st addr).2 = (st.minSegSize : Int)) ∧
    (∀ l0, lowerNeighbor st.live (addr : Int) = some l0 →
      ((st.minSegSize / 2 : Nat) : Int) ≤ (addr : Int) →
      (addr : Int) - ((st.minSegSize / 2 : Nat) : Int) ≤ l0.stopI →
      (missingWindow st addr).1 = l0.stopI ∧
      ((∀ u0, upperNeighbor st.live (addr : Int) = some u0 →
          (addr : Int) + ((st.minSegSize / 2 : Nat) : Int) + 1 +
            (l0.stopI - ((addr : Int) - ((st.minSegSize / 2 : Nat) : Int))) ≤ u0.lo) →
        (addr : Int) + ((st.minSegSize / 2 : Nat) : Int) + 1 +
            (l0.stopI - ((addr : Int) - ((st.minSegSize / 2 : Nat) : Int))) ≤ maxAddr + 1 →
        (missingWindow st addr).2 =
          (addr : Int) + ((st.minSegSize / 2 : Nat) : Int) + 1 +
            (l0.stopI - ((addr : Int) - ((st.minSegSize / 2 : Nat) : Int))))) ∧
    (∀ u0, upperNeighbor st.live (addr : Int) = some u0 →
      (missingWindow st addr).2 ≤ u0.lo) ∧
    (∀ l0, lowerNeighbor st.live (addr : Int) = some l0 →
      l0.stopI ≤ (missingWindow st addr).1) ∧
    (((st.minSegSize / 2 : Nat) : Int) ≤ (addr : Int) →
      lowerNeighbor st.live (addr : Int) = none →
      upperNeighbor st.live (addr : Int) = none →
      maxAddr < (addr : Int) + ((st.minSegSize / 2 : Nat) : Int) + 1 →
      (missingWindow st addr).2 = maxAddr + 1) ∧
    (∀ t ∈ st.live, t.hi < (missingWindow st addr).1 ∨ (missingWindow st addr).2 ≤ t.lo) ∧
    createMissingSegment st addr =
      insertSegment st ⟨(missingWindow st addr).1.toNat,
        List.replicate ((missingWindow st addr).2 - (missingWindow st addr).1).toNat 0⟩ ∧
    (∀ a : Int, Segment.byteAt ⟨(missingWindow st addr).1.toNat,
        List.replicate ((missingWindow st addr).2 - (missingWindow st addr).1).toNat 0⟩ a
      = 0) := by
  have hbounds := missingWindow_bounds st addr hwf.1 ha
  have hnov := missingWindow_no_overlap st addr hwf.1 ha hnc
  have hodd : st.minSegSize % 2 = 1 := hwf.2.2.1
  refine ⟨⟨hbounds.2.1, hbounds.2.2.1, hbounds.1, hbounds.2.2.2⟩, ?_, ?_, ?_, ?_, ?_, ?_,
    hnov, rfl, fun a => byteAt_replicate _ _ a⟩
  · intro h1 h2 h3 h4
    cases hlow : lowerNeighbor st.live (addr : Int) with
    | none =>
      cases hup : upperNeighbor st.live (addr : Int) with
      | none =>
        simp only [missingWindow, hlow, hup]
        split_ifs <;> refine ⟨by omega, by omega, by omega⟩
      | some u0 =>
        have hu := h4 u0 hup
        simp only [missingWindow, hlow, hup]
        split_ifs <;> refine ⟨by omega, by omega, by omega⟩
    | some l0 =>
      have hl := h3 l0 hlow
      cases hup : upperNeighbor st.live (addr : Int) with
      | none =>
        simp only [missingWindow, hlow, hup]
        split_ifs <;> refine ⟨by omega, by omega, by omega⟩
      | some u0 =>
        have hu := h4 u0 hup
        simp only [missingWindow, hlow, hup]
        split_ifs <;> refine ⟨by omega, by omega, by omega⟩
  · intro h1 h2 h3 h4
    cases hup : upperNeighbor st.live (addr : Int) with
    | none =>
      simp only [missingWindow, h2, hup]
      split_ifs <;> refine ⟨by omega, by omega⟩
    | some u0 =>
      have hu := h3 u0 hup
      simp only [missingWindow, h2, hup]
      split_ifs <;> refine ⟨by omega, by omega⟩
  · intro l0 hlow h1 h2
    constructor
    · cases hup : upperNeighbor st.live (addr : Int) with
      | none =>
        simp only [missingWindow, hlow, hup]
        split_ifs <;> omega
      | some u0 =>
        simp only [missingWindow, hlow, hup]
        split_ifs <;> omega
    · intro hu' hclamp
      cases hup : upperNeighbor st.live (addr : Int) with
      | none =>
        simp only [missingWindow, hlow, hup]
        split_ifs <;> omega
      | some u0 =>
        have hu := hu' u0 hup
        simp only [missingWindow, hlow, hup]
        split_ifs <;> omega
  · intro u0 hup
    cases hlow : lowerNeighbor st.live (addr : Int) with
    | none =>
      simp only [missingWindow, hlow, hup]
      split_ifs <;> omega
    | some l0 =>
      simp only [missingWindow, hlow, hup]
      split_ifs <;> omega
  · intro l0 hlow
    cases hup : upperNeighbor st.live (addr : Int) with
    | none =>
      simp only [missingWindow, hlow, hup]
      split_ifs <;> omega
    | some u0 =>
      simp only [missingWindow, hlow, hup]
      split_ifs <;> omega
  · intro h1 h2 h3 h4
    simp only [missingWindow, h2, h3]
    split_ifs <;> omega

/-- C7 witness. -/
theorem claim_C7_createMissingSegment_policy_witness :
    WFStore freshStore ∧ ((100 : Nat) : Int) ≤ maxAddr ∧
    ((missingWindow freshStore 100).1 ≤ ((100 : Nat) : Int) ∧
      ((100 : Nat) : Int) < (missingWindow freshStore 100).2 ∧
      0 ≤ (missingWindow freshStore 100).1 ∧
      (missingWindow freshStore 100).2 ≤ maxAddr + 1) :=
  ⟨by decide, by decide,
    (claim_C7_createMissingSegment_policy freshStore 100 (by decide) (by decide)
      (fun t ht => absurd ht (List.not_mem_nil t))).1⟩

/-- C4: the claim states that a read of an address not covered by any live
segment yields 0 — in particular right after `clear()` — because the MRU
cache is a hint and never authoritative.  The code falsifies this: `clear()`
empties the interval index but leaves `m_mruSegment` populated, and
`segmentForAddress` consults the stale cached segment first, so after
`insertSegment({start 0, bytes [7,7,7,7,7]}); clear()` the live store is
empty and the live byte map reads 0 at address 2, yet `readByte(2)` returns
the stale byte 7 instead of 0. -/
theorem claim_C4_unmapped_reads_zero_after_clear :
    ((clear ⟨insertSegment freshStore ⟨0, [7, 7, 7, 7, 7]⟩, none⟩).store.live = [] ∧
      memOf (clear ⟨insertSegment freshStore ⟨0, [7, 7, 7, 7, 7]⟩, none⟩).store.live 2 = 0) ∧
    (readByte (clear ⟨insertSegment freshStore ⟨0, [7, 7, 7, 7, 7]⟩, none⟩).store 2).map
        Prod.fst = some 7 := by
  exact ⟨⟨rfl, rfl⟩, rfl⟩

/-- C5: after `addInitSegment(seg); reset()`, an arbitrary sequence of valid
live-memory mutations (writes, insertions, reads — no reset), followed by a
second `reset()`, reproduces `seg`'s exact bytes over `seg`'s address range:
the overlay is untouched by the intervening mutation and the second reset
rebuilds live memory from it. -/
theorem claim_C5_reset_reproduces_overlay (st0 : SpAS) (hwf : WFS st0) (seg : Segment)
    (hne : seg.data ≠ []) (hhi : seg.hi ≤ maxAddr) (ops : List Op)
    (hops : ∀ op ∈ ops, LiveOp op ∧ ValidOp op) (stM : SpAS)
    (hrun : runOps (reset (addInitSegment st0 seg)) ops = some stM) :
    stM.initData = (addInitSegment st0 seg).initData ∧
    ∀ a : Int, seg.covers a → memOf (reset stM).store.live a = seg.byteAt a := by
  obtain ⟨ovB, hovB, hst1store, hst1init⟩ :
      ∃ ovB, WFStore ovB ∧ (addInitSegment st0 seg).store = st0.store ∧
        (addInitSegment st0 seg).initData = some (insertSegment ovB seg) := by
    cases hd : st0.initData with
    | none =>
      exact ⟨freshStore, WFStore_fresh, by simp only [addInitSegment, getInitSas, hd],
        by simp only [addInitSegment, getInitSas, hd]⟩
    | some ov0 =>
      exact ⟨ov0, hwf.2 ov0 hd, by simp only [addInitSegment, getInitSas, hd],
        by simp only [addInitSegment, getInitSas, hd]⟩
  obtain ⟨hwfov, hminov, hokov, hmemov⟩ := insertSegment_store_spec hovB hne hhi
  have hwf1 : WFS (addInitSegment st0 seg) := by
    constructor
    · rw [hst1store]
      exact hwf.1
    · intro ov hov
      rw [hst1init] at hov
      cases hov
      exact hwfov
  have hwfR : WFS (reset (addInitSegment st0 seg)) := reset_WFS hwf1
  have hval : ∀ op ∈ ops, ValidOp op := fun op h => (hops op h).2
  have hliveops : ∀ op ∈ ops, LiveOp op := fun op h => (hops op h).1
  have hwfM : WFS stM := runOps_WFS hwfR ops stM hval hrun
  have hinitM : stM.initData = (addInitSegment st0 seg).initData :=
    runOps_initData hliveops (reset (addInitSegment st0 seg)) stM hrun
  refine ⟨hinitM, ?_⟩
  intro a hcov
  have hdM : stM.initData = some (insertSegment ovB seg) := by rw [hinitM, hst1init]
  have hres : (reset stM).store =
      (insertSegment ovB seg).live.foldl insertSegment { stM.store with live := [] } := by
    show (match stM.initData with
      | some ov => ov.live.foldl insertSegment { stM.store with live := [] }
      | none => { stM.store with live := [] }) = _
    rw [hdM]
  have hbase : WFStore ({ stM.store with live := [] } : Store) := WFStore_empty_live hwfM.1
  have hpair : (([] : List Segment) ++ (insertSegment ovB seg).live).Pairwise separated := by
    rw [List.nil_append]
    exact hwfov.1.2
  have hall : ∀ t ∈ ([] : List Segment) ++ (insertSegment ovB seg).live,
      t.data ≠ [] ∧ t.hi ≤ maxAddr := by
    rw [List.nil_append]
    exact hwfov.1.1
  have hmem0 : ∀ b : Int, memOf ({ stM.store with live := [] } : Store).live b =
      memOf ([] : List Segment) b := fun b => rfl
  obtain ⟨hwfF, hmemF⟩ := foldl_insert_memOf_aux (insertSegment ovB seg).live []
    { stM.store with live := [] } hpair hall hbase hmem0
  rw [hres, hmemF a, List.nil_append, hmemov a, if_pos hcov]

/-- C5 witness. -/
theorem claim_C5_reset_reproduces_overlay_witness :
    WFS ⟨freshStore, none⟩ ∧ (⟨10, [1, 2, 3]⟩ : Segment).data ≠ [] ∧
    (⟨10, [1, 2, 3]⟩ : Segment).hi ≤ maxAddr ∧
    (∀ op ∈ [Op.wb 11 9], LiveOp op ∧ ValidOp op) ∧
    ∃ stM, runOps (reset (addInitSegment ⟨freshStore, none⟩ ⟨10, [1, 2, 3]⟩))
        [Op.wb 11 9] = some stM ∧
      (stM.initData = (addInitSegment ⟨freshStore, none⟩ ⟨10, [1, 2, 3]⟩).initData ∧
       ∀ a : Int, Segment.covers ⟨10, [1, 2, 3]⟩ a →
         memOf (reset stM).store.live a = Segment.byteAt ⟨10, [1, 2, 3]⟩ a) := by
  refine ⟨by decide, by decide, by decide, by decide, ?_⟩
  cases hrun : runOps (reset (addInitSegment ⟨freshStore, none⟩ ⟨10, [1, 2, 3]⟩))
      [Op.wb 11 9] with
  | none => exact absurd hrun (by decide)
  | some stM =>
    exact ⟨stM, rfl,
      claim_C5_reset_reproduces_overlay ⟨freshStore, none⟩ (by decide) ⟨10, [1, 2, 3]⟩
        (by decide) (by decide) [Op.wb 11 9] (by decide) stM hrun⟩

/-- C6 counterexample: in the reachable state
`insertSegment({start 0, bytes [7,7,7,7,7]}); clear()` (whose MRU cache is
stale), writing the 4-byte value 0x01020304 at address 4 and reading 4 bytes
back yields 0x01020300, not 0x01020304: the first byte of the write lands in
the stale cached segment instead of live memory, so the claim's unconditional
round trip fails. -/
theorem claim_C6_roundtrip_counterexample :
    ((writeBytesLE (clear ⟨insertSegment freshStore ⟨0, [7, 7, 7, 7, 7]⟩, none⟩).store
        4 16909060 4).bind fun s1 => (readValueLE s1 4 4).map Prod.fst) = some 16909056 ∧
    16909056 ≠ 16909060 := by
  exact ⟨rfl, by decide⟩

/-- C6 (amended): in every well-formed store whose MRU cache is healthy
(references a live segment when set — true in every state the public
write/read/insert interface produces, and only broken by the stale cache
`clear()`/`reset()` leave behind), and for a value type of `W ≤ 4` bytes,
`writeValue(a, x, W)` stores the `W` bytes little-endian via `writeByte` and
a subsequent `readValue` of width `W` at `a` returns `x`, including when the
write triggers lazy allocation of previously unmapped memory; a read of
width greater than 4 has no defined result, because the source promotes each
byte to 32-bit `int` before shifting it by `i * CHAR_BIT`. -/
theorem claim_C6_writeValue_readValue_roundtrip (st : Store) (hwf : WFStore st)
    (hok : MRUOk st) (a x W : Nat) (ha : a < 4294967296) (hW : W ≤ 4)
    (hx : x < 256 ^ W) :
    (∃ st1 st2, writeBytesLE st a x W = some st1 ∧
      readValueLE st1 a W = some (x, st2)) ∧
    (∀ (st' : Store) (a' w : Nat), 4 < w → readValueLE st' a' w = none) := by
  refine ⟨writeBytesLE_readValueLE st a x W hwf hok ha hW hx, ?_⟩
  intro st' a' w hw
  unfold readValueLE
  rw [if_neg (by omega)]

/-- C6 (amended) witness. -/
theorem claim_C6_writeValue_readValue_roundtrip_witness :
    WFStore freshStore ∧ 115 < 4294967296 ∧ 4 ≤ 4 ∧ 3735928559 < 256 ^ 4 ∧
    ((∃ st1 st2, writeBytesLE freshStore 115 3735928559 4 = some st1 ∧
        readValueLE st1 115 4 = some (3735928559, st2)) ∧
      (∀ (st' : Store) (a' w : Nat), 4 < w → readValueLE st' a' w = none)) :=
  ⟨by decide, by decide, by decide, by decide,
    claim_C6_writeValue_readValue_roundtrip freshStore (by decide)
      (fun m hm => nomatch hm) 115 3735928559 4 (by decide) (by decide) (by decide)⟩

end SpASpace
